import Mathlib

/-!
Verification of the structured configuration patch engine of
`bulk_repo_pr_creator.py` (YAML text-block delete, structural YAML/JSON
navigation, predicate matcher, env upsert, text replacement).

The Python functions are shallowly embedded over `Str := List Char`.
External library calls (`yaml.safe_load`, `yaml.dump`, `json.loads`,
`json.dumps`) are not repository code; they are modelled as oracle
parameters (`ParseOutcome`, dump functions) supplied per theorem.
-/

namespace BulkPr

/-- Raw text, as a list of characters (Python `str`). -/
abbrev Str := List Char

/-- Python `str.strip` / regex `\s` whitespace characters.  Newline is
included for completeness although split lines never contain it. -/
def wsChar (c : Char) : Bool :=
  c == ' ' || c == '\t' || c == '\n' || c == '\r' || c == '\x0b' || c == '\x0c'

/-- `len(line) - len(line.lstrip())`: the indentation width of a line. -/
def indentOf (l : Str) : Nat := (l.takeWhile wsChar).length

/-- `not line.strip()`: the line is empty or whitespace only. -/
def isBlankL (l : Str) : Bool := (l.dropWhile wsChar).isEmpty

/-- `line.lstrip().startswith('-')`. -/
def startsDash (l : Str) : Bool :=
  match l.dropWhile wsChar with
  | '-' :: _ => true
  | _ => false

/-- `re.match(rf'^(\s*){re.escape(key_name)}\s*:(.*)$', line)`:
returns `(len(group(1)), group(2))` on success.  Models the greedy match;
for a key that begins with a whitespace character the regex engine could
also absorb part of the indent into the key, but rule keys are plain
identifiers, so the greedy reading below is the behaviour exercised. -/
def keyMatch (key l : Str) : Option (Nat × Str) :=
  let w := l.takeWhile wsChar
  let r := l.dropWhile wsChar
  if key.isPrefixOf r then
    match (r.drop key.length).dropWhile wsChar with
    | ':' :: rest => some (w.length, rest)
    | _ => none
  else none

/-- `rest_of_line = key_match.group(2).strip()` followed by
`if rest_of_line and not rest_of_line.startswith('#')`: the matched key
line carries an inline value. -/
def inlineVal (rol : Str) : Bool :=
  match rol.dropWhile wsChar with
  | [] => false
  | '#' :: _ => false
  | _ => true

/-- Python `content.split('\n')`. -/
def splitNl : Str → List Str
  | [] => [[]]
  | c :: rest =>
    if c = '\n' then [] :: splitNl rest
    else
      match splitNl rest with
      | [] => [[c]]
      | l :: ls => (c :: l) :: ls

/-- Python `'\n'.join(lines)`. -/
def joinNl : List Str → Str
  | [] => []
  | [l] => l
  | l :: ls => l ++ '\n' :: joinNl ls

/-- `content.endswith('\n')`. -/
def endsNl (s : Str) : Bool := s.getLast? == some '\n'

/-- Inner while loop of `delete_yaml_key_preserve_formatting`
(source lines 567-576): after a list item at the block indent has been
consumed, consume its nested content; blank lines are consumed, the loop
stops at the first non-blank line whose indentation is at most the list
item indentation. -/
def skipNested (itemIndent : Nat) : List Str → List Str
  | [] => []
  | l :: rest =>
    if isBlankL l then skipNested itemIndent rest
    else if indentOf l ≤ itemIndent then l :: rest
    else skipNested itemIndent rest

/-- Middle while loop of `delete_yaml_key_preserve_formatting`
(source lines 548-586), fuelled so that the definition is structural.
Consumes the block value of a matched key line of indent `ind`: blank
lines, deeper-indented lines, and list items at exactly indent `ind`
together with their nested content; stops at the first other line whose
indentation is at most `ind`.  The fuel only needs to cover the number of
consumed lines; the wrapper passes the list length. -/
def skipBlockF : Nat → Nat → List Str → List Str
  | 0, _, ls => ls
  | _ + 1, _, [] => []
  | fuel + 1, ind, l :: rest =>
    if isBlankL l then skipBlockF fuel ind rest
    else if indentOf l == ind && startsDash l then
      skipBlockF fuel ind (skipNested (indentOf l) rest)
    else if indentOf l ≤ ind then l :: rest
    else skipBlockF fuel ind rest

/-- Block consumption with adequate fuel. -/
def skipBlock (ind : Nat) (ls : List Str) : List Str := skipBlockF ls.length ind ls

/-- Outer while loop of `delete_yaml_key_preserve_formatting`
(source lines 523-590), fuelled: scan all lines; a line matching the key
is dropped (together with its block when it has no inline value) and
`deleted` becomes true; all other lines are emitted unchanged. -/
def delLoopF : Nat → Str → List Str → List Str × Bool
  | 0, _, ls => (ls, false)
  | _ + 1, _, [] => ([], false)
  | fuel + 1, key, l :: rest =>
    match keyMatch key l with
    | some (ind, rol) =>
      if inlineVal rol then
        ((delLoopF fuel key rest).1, true)
      else
        ((delLoopF fuel key (skipBlock ind rest)).1, true)
    | none =>
      let r := delLoopF fuel key rest
      (l :: r.1, r.2)

/-- The text-block deletion scan with adequate fuel. -/
def delLoop (key : Str) (ls : List Str) : List Str × Bool := delLoopF ls.length key ls

/-- Combined consumption predicate for a block of indent `ind`: blank, or
more deeply indented, or a list item at exactly indent `ind`. -/
def blockP (ind : Nat) (l : Str) : Bool :=
  isBlankL l || decide (ind < indentOf l) || (decide (indentOf l = ind) && startsDash l)

/-! ## The in-memory document model

Values produced by `yaml.safe_load` / `json.load`: scalars, sequences and
mappings.  Mapping keys are strings as loaded; the structural navigator can
also insert integer keys (`current[final_key] = value` with an `int` key on
a dict), hence `MKey`.  Floats do not occur in any rule or document
considered here and are not modelled. -/

inductive MKey where
  | s (v : Str)
  | i (v : Int)
deriving DecidableEq, Repr

inductive YVal where
  | str (s : Str)
  | int (n : Int)
  | bool (b : Bool)
  | null
  | seq (xs : List YVal)
  | map (kvs : List (MKey × YVal))

/-- Python `dict[k]` lookup restricted to a string key (`data[key_name]`). -/
def mlookup (kvs : List (MKey × YVal)) (k : Str) : Option YVal :=
  match kvs with
  | [] => none
  | (MKey.s k', v) :: rest => if k' = k then some v else mlookup rest k
  | _ :: rest => mlookup rest k

/-- Python `dict.get(k)` with default `None`: a missing key reads as null. -/
def pyGet (kvs : List (MKey × YVal)) (k : Str) : YVal :=
  (mlookup kvs k).getD YVal.null

/-- Lookup by an arbitrary key. -/
def mlookupM (kvs : List (MKey × YVal)) (k : MKey) : Option YVal :=
  match kvs with
  | [] => none
  | (k', v) :: rest => if k' = k then some v else mlookupM rest k

/-- Python in-place `dict[k] = v`: replace the value of an existing key
keeping its position, else append the new pair at the end (insertion
order). -/
def minsert (kvs : List (MKey × YVal)) (k : MKey) (v : YVal) : List (MKey × YVal) :=
  match kvs with
  | [] => [(k, v)]
  | (k', v') :: rest => if k' = k then (k, v) :: rest else (k', v') :: minsert rest k v

/-- Python in-place `del dict[k]` (first occurrence; loaded maps have
unique keys). -/
def mremove (kvs : List (MKey × YVal)) (k : MKey) : List (MKey × YVal) :=
  match kvs with
  | [] => []
  | (k', v') :: rest => if k' = k then rest else (k', v') :: mremove rest k

mutual

/-- Python `==` on loaded values: dict comparison is key-set based, and
`int`/`bool` compare by numeric value (`True == 1`).  Python additionally
unifies `1` and `True` as dict keys; no document here has such keys, so map
keys compare structurally. -/
def pyEq : YVal → YVal → Bool
  | YVal.str a, YVal.str b => a == b
  | YVal.int a, YVal.int b => a == b
  | YVal.bool a, YVal.bool b => a == b
  | YVal.int a, YVal.bool b => a == (if b then 1 else 0)
  | YVal.bool a, YVal.int b => (if a then (1 : Int) else 0) == b
  | YVal.null, YVal.null => true
  | YVal.seq xs, YVal.seq ys => pyEqList xs ys
  | YVal.map m1, YVal.map m2 => (m1.length == m2.length) && pyEqKvs m2 m1
  | _, _ => false

def pyEqList : List YVal → List YVal → Bool
  | [], [] => true
  | x :: xs, y :: ys => pyEq x y && pyEqList xs ys
  | _, _ => false

def pyEqKvs : List (MKey × YVal) → List (MKey × YVal) → Bool
  | _, [] => true
  | other, (k, v) :: rest =>
    (match mlookupM other k with
     | some w => pyEq v w
     | none => false) && pyEqKvs other rest

end

mutual

/-- Structural equality test on document values. -/
def ybeq : YVal → YVal → Bool
  | YVal.str a, YVal.str b => a == b
  | YVal.int a, YVal.int b => a == b
  | YVal.bool a, YVal.bool b => a == b
  | YVal.null, YVal.null => true
  | YVal.seq xs, YVal.seq ys => ybeqList xs ys
  | YVal.map m1, YVal.map m2 => ybeqKvs m1 m2
  | _, _ => false

def ybeqList : List YVal → List YVal → Bool
  | [], [] => true
  | x :: xs, y :: ys => ybeq x y && ybeqList xs ys
  | _, _ => false

def ybeqKvs : List (MKey × YVal) → List (MKey × YVal) → Bool
  | [], [] => true
  | (k, v) :: r1, (k2, v2) :: r2 => (k == k2) && ybeq v v2 && ybeqKvs r1 r2
  | _, _ => false

end

/-- Lexicographic order on character lists. -/
def lexLe : Str → Str → Bool
  | [], _ => true
  | _ :: _, [] => false
  | c :: cs, d :: ds => if c < d then true else if d < c then false else lexLe cs ds

/-- Boolean order on map keys used only to model the stable output of
`yaml.dump(..., sort_keys=True)`; loaded documents have homogeneous string
keys, where this is the lexicographic order Python uses. -/
def mkeyLe : MKey → MKey → Bool
  | MKey.i a, MKey.i b => a ≤ b
  | MKey.i _, MKey.s _ => true
  | MKey.s _, MKey.i _ => false
  | MKey.s a, MKey.s b => lexLe a b

/-- Insertion sort of key/value pairs by key. -/
def insertKv (p : MKey × YVal) : List (MKey × YVal) → List (MKey × YVal)
  | [] => [p]
  | q :: rest => if mkeyLe p.1 q.1 then p :: q :: rest else q :: insertKv p rest

def sortKvs : List (MKey × YVal) → List (MKey × YVal)
  | [] => []
  | p :: rest => insertKv p (sortKvs rest)

mutual

/-- Canonical form modelling a `yaml.dump(value, sort_keys=True)` round
trip: mapping keys sorted recursively, everything else unchanged. -/
def ynorm : YVal → YVal
  | YVal.seq xs => YVal.seq (ynormList xs)
  | YVal.map kvs => YVal.map (sortKvs (ynormKvs kvs))
  | v => v

def ynormList : List YVal → List YVal
  | [] => []
  | x :: xs => ynorm x :: ynormList xs

def ynormKvs : List (MKey × YVal) → List (MKey × YVal)
  | [] => []
  | (k, v) :: rest => (k, ynorm v) :: ynormKvs rest

end

/-- `_yaml_values_equal` (source lines 420-435): both sides are dumped with
sorted keys and the dumps compared, i.e. equality up to recursive map key
ordering. -/
def _yaml_values_equal (a b : YVal) : Bool := ybeq (ynorm a) (ynorm b)

/-- The string "key". -/
def kKey : Str := "key".toList

/-- The string "nodeAffinity". -/
def kNodeAff : Str := "nodeAffinity".toList

/-- `_yaml_value_contains` fallthrough (source lines 466-473): the
`nodeAffinity` marker-key case followed by the exact-match default. -/
def containsFallback (current_val expected_pattern : YVal) : Bool :=
  match expected_pattern with
  | YVal.map pm =>
    if (mlookup pm kNodeAff).isSome then
      match current_val with
      | YVal.map m => (mlookup m kNodeAff).isSome
      | _ => _yaml_values_equal current_val expected_pattern
    else _yaml_values_equal current_val expected_pattern
  | _ => _yaml_values_equal current_val expected_pattern

/-- `_yaml_value_contains` (source lines 438-475).  Case 1: a one-element
list pattern whose element is a dict containing "key" matches a list value
containing an item with the same "key" field; a non-list value falls
through.  Case 2: a dict pattern containing "nodeAffinity" matches a dict
value containing "nodeAffinity"; a non-dict value falls through.  Default:
normalized equality. -/
def _yaml_value_contains (current_val expected_pattern : YVal) : Bool :=
  match expected_pattern with
  | YVal.seq [YVal.map pm] =>
    if (mlookup pm kKey).isSome then
      match current_val with
      | YVal.seq xs =>
        xs.any (fun item =>
          match item with
          | YVal.map m => pyEq (pyGet m kKey) (pyGet pm kKey)
          | _ => false)
      | _ => containsFallback current_val expected_pattern
    else containsFallback current_val expected_pattern
  | _ => containsFallback current_val expected_pattern

/-- Outcome of the external `yaml.safe_load(content) or {}` call: either
the loaded value (with `None` already replaced by the empty mapping), or a
raised exception. -/
inductive ParseOutcome where
  | ok (v : YVal)
  | exn

/-- The expected-value gate of `delete_yaml_key_preserve_formatting`
(source lines 503-515): when the parsed document is a mapping that has the
key, delete only if `_yaml_value_contains` accepts the current value.  In
every other situation the text delete proceeds: a parse exception is
caught; when the key is missing the code proceeds explicitly; and when the
loaded document is not a mapping, `data[key_name]` either raises a caught
`TypeError` or the containment test `key_name in data` already fails. -/
def predGate (key : Str) (expected : YVal) : ParseOutcome → Bool
  | ParseOutcome.ok (YVal.map kvs) =>
    match mlookup kvs key with
    | some cur => _yaml_value_contains cur expected
    | none => true
  | _ => true

/-- `delete_yaml_key_preserve_formatting` (source lines 478-605) as a
function of the file content; `parsed` stands for the external
`yaml.safe_load` of that same content.  The source first checks
`re.search(rf'^\s*{key}\s*:', content, re.MULTILINE)`; a multiline match
whose colon sits on a later line than the key is possible for the regex
but not for the per-line scan, and in that case both versions return the
content unchanged with result false, so the existence test is modelled
per line. -/
def delete_yaml_key_preserve_formatting (key : Str) (expected : Option YVal)
    (parsed : ParseOutcome) (content : Str) : Str × Bool :=
  let lines := splitNl content
  if ¬ lines.any (fun l => (keyMatch key l).isSome) then (content, false)
  else if (match expected with
           | some ev => ! predGate key ev parsed
           | none => false) then (content, false)
  else
    let r := delLoop key lines
    if r.2 then
      (joinNl r.1 ++ (if endsNl content then ['\n'] else []), true)
    else (content, false)

/-! ## Path resolver and structural navigator (source lines 662-751) -/

def digitChar (c : Char) : Bool := decide ('0' ≤ c) && decide (c ≤ '9')

/-- `int` of a non-empty digit string. -/
def digitsToNat (ds : Str) : Nat := ds.foldl (fun n c => 10 * n + (c.toNat - '0'.toNat)) 0

/-- `re.split(r'\[(\d+)\]', path)`: alternating text segments (left) and
captured bracketed indices (right), fuelled so the definition is
structural; the wrapper passes the string length, which the scan never
exhausts since every step consumes at least one character. -/
def scanBrF : Nat → Str → Str → List (Str ⊕ Nat)
  | 0, acc, rest => [Sum.inl (acc.reverse ++ rest)]
  | _ + 1, acc, [] => [Sum.inl acc.reverse]
  | fuel + 1, acc, '[' :: rest =>
    (match rest.takeWhile digitChar, rest.dropWhile digitChar with
     | d :: ds, ']' :: rest2 =>
       Sum.inl acc.reverse :: Sum.inr (digitsToNat (d :: ds)) :: scanBrF fuel [] rest2
     | _, _ => scanBrF fuel ('[' :: acc) rest)
  | fuel + 1, acc, c :: rest => scanBrF fuel (c :: acc) rest

/-- Python `segment.split('.')`. -/
def splitDot : Str → List Str
  | [] => [[]]
  | c :: rest =>
    if c = '.' then [] :: splitDot rest
    else
      match splitDot rest with
      | [] => [[c]]
      | l :: ls => (c :: l) :: ls

inductive PathKey where
  | pkey (s : Str)
  | pidx (n : Nat)
deriving DecidableEq

/-- The filter `[k for k in keys if k]` keeps Python-truthy entries only:
it drops empty string segments and ALSO the integer index 0, which is
falsy in Python. -/
def pathTruthy : PathKey → Bool
  | PathKey.pkey s => !s.isEmpty
  | PathKey.pidx n => n != 0

/-- Path resolution of `apply_yaml_changes` (source lines 669-677): split
on bracketed indices, split the text segments on dots, then apply the
truthiness filter. -/
def parsePath (p : Str) : List PathKey :=
  ((scanBrF p.length [] p).foldr
    (fun t acc =>
      (match t with
       | Sum.inl s => (splitDot s).map PathKey.pkey
       | Sum.inr n => [PathKey.pidx n]) ++ acc) []).filter pathTruthy

def toMKey : PathKey → MKey
  | PathKey.pkey s => MKey.s s
  | PathKey.pidx n => MKey.i (n : Int)

/-- The `update_key` navigation of `apply_yaml_changes` (source lines
679-702), written functionally: the in-place mutations become reassembly
on the way out.  `Except.error` models an uncaught exception
(`IndexError` from `current = current[key]` after the single append when
the index exceeds the old length, or `keys[-1]` on an empty key list);
the `.ok cur` fallthroughs model the logged warning plus `break` that
skips the final assignment while keeping mutations already made. -/
def setPath : List PathKey → YVal → YVal → Except Unit YVal
  | [], _, _ => Except.error ()
  | [last], v, cur =>
    (match cur, last with
     | YVal.map kvs, k => Except.ok (YVal.map (minsert kvs (toMKey k) v))
     | YVal.seq xs, PathKey.pidx i =>
       if i < xs.length then Except.ok (YVal.seq (xs.set i v))
       else Except.ok (YVal.seq (xs ++ [v]))
     | _, _ => Except.ok cur)
  | k :: k2 :: rest, v, cur =>
    (match cur, k with
     | YVal.map kvs, k =>
       let child := (mlookupM kvs (toMKey k)).getD (YVal.map [])
       (setPath (k2 :: rest) v child).map (fun c2 => YVal.map (minsert kvs (toMKey k) c2))
     | YVal.seq xs, PathKey.pidx i =>
       if h : i < xs.length then
         (setPath (k2 :: rest) v xs[i]).map (fun c2 => YVal.seq (xs.set i c2))
       else if i = xs.length then
         (setPath (k2 :: rest) v (YVal.map [])).map (fun c2 => YVal.seq (xs ++ [c2]))
       else Except.error ()
     | _, _ => Except.ok cur)

/-- The `delete_key` navigation of `apply_yaml_changes` (source lines
703-751): navigate without creating, delete the final key or index when
present, gated by `_yaml_value_contains` when an expected value is
given. -/
def delPath : List PathKey → Option YVal → YVal → Except Unit YVal
  | [], _, _ => Except.error ()
  | [last], expected, cur =>
    (match cur, last with
     | YVal.map kvs, k =>
       (match mlookupM kvs (toMKey k) with
        | some curv =>
          (match expected with
           | some ev =>
             if _yaml_value_contains curv ev then Except.ok (YVal.map (mremove kvs (toMKey k)))
             else Except.ok cur
           | none => Except.ok (YVal.map (mremove kvs (toMKey k))))
        | none => Except.ok cur)
     | YVal.seq xs, PathKey.pidx i =>
       if h : i < xs.length then
         (match expected with
          | some ev =>
            if _yaml_value_contains xs[i] ev then Except.ok (YVal.seq (xs.eraseIdx i))
            else Except.ok cur
          | none => Except.ok (YVal.seq (xs.eraseIdx i)))
       else Except.ok cur
     | _, _ => Except.ok cur)
  | k :: k2 :: rest, expected, cur =>
    (match cur, k with
     | YVal.map kvs, k =>
       (match mlookupM kvs (toMKey k) with
        | some child =>
          (delPath (k2 :: rest) expected child).map
            (fun c2 => YVal.map (minsert kvs (toMKey k) c2))
        | none => Except.ok cur)
     | YVal.seq xs, PathKey.pidx i =>
       if h : i < xs.length then
         (delPath (k2 :: rest) expected xs[i]).map (fun c2 => YVal.seq (xs.set i c2))
       else Except.ok cur
     | _, _ => Except.ok cur)

inductive ChangeOp where
  | replaceOp (pat rep : Str)
  | update (path : Str) (value : YVal)
  | deleteKey (path : Str) (expected : Option YVal)

/-- The structural loop of `apply_yaml_changes` (source lines 662-751)
over the parsed document. -/
def applyStructOps : List ChangeOp → YVal → Except Unit YVal
  | [], d => Except.ok d
  | ChangeOp.update p v :: rest, d =>
    if p.isEmpty then applyStructOps rest d
    else
      let keys := parsePath p
      if keys.isEmpty then Except.error ()
      else (setPath keys v d).bind (applyStructOps rest)
  | ChangeOp.deleteKey p ev :: rest, d =>
    if p.isEmpty then applyStructOps rest d
    else
      let keys := parsePath p
      if keys.isEmpty then Except.error ()
      else (delPath keys ev d).bind (applyStructOps rest)
  | ChangeOp.replaceOp _ _ :: rest, d => applyStructOps rest d

/-- Branch decision of `apply_yaml_changes` (source lines 622-640): true
iff the scan meets no `update_key` and no dotted or bracketed
`delete_key` path before the end. -/
def onlyTopLevelDeletes : List ChangeOp → Bool
  | [] => true
  | ChangeOp.deleteKey p _ :: rest =>
    if p.contains '.' || p.contains '[' then false else onlyTopLevelDeletes rest
  | ChangeOp.update _ _ :: _ => false
  | ChangeOp.replaceOp _ _ :: rest => onlyTopLevelDeletes rest

/-- The text-based branch of `apply_yaml_changes` (source lines 640-648):
each `delete_key` re-reads the file, so the content is threaded through;
`parseO` models `yaml.safe_load` on whatever content the file holds at
that point. -/
def yamlTextDeletes (parseO : Str → ParseOutcome) :
    List ChangeOp → Str → Str × Bool
  | [], c => (c, false)
  | ChangeOp.deleteKey p ev :: rest, c =>
    let r := delete_yaml_key_preserve_formatting p ev (parseO c) c
    let r2 := yamlTextDeletes parseO rest r.1
    (r2.1, r.2 || r2.2)
  | _ :: rest, c => yamlTextDeletes parseO rest c

/-- `apply_yaml_changes` (source lines 608-778).  `parseO` and `dumpO`
model the external YAML library; the changed test compares the
`sort_keys=True` dumps, i.e. the key-sorted canonical forms; a structural
write emits the library dump of the final document.  `Except.error`
models an exception escaping the function (caught by the caller
`apply_file_changes`, which then treats the file as unmodified). -/
def apply_yaml_changes (parseO : Str → ParseOutcome) (dumpO : YVal → Str)
    (changes : List ChangeOp) (content : Str) : Except Unit (Str × Bool) :=
  if onlyTopLevelDeletes changes then Except.ok (yamlTextDeletes parseO changes content)
  else
    match parseO content with
    | ParseOutcome.exn => Except.ok (content, false)
    | ParseOutcome.ok data =>
      (applyStructOps changes data).map (fun d2 =>
        if ybeq (ynorm d2) (ynorm data) then (content, false) else (dumpO d2, true))

/-! ## JSON strategy (source lines 355-417) -/

/-- Python `int(s)` for a plain optionally-signed decimal string (the
leading/trailing whitespace and underscores Python also accepts do not
occur in rule paths and are not modelled). -/
def pyInt (s : Str) : Option Int :=
  match s with
  | '-' :: ds => if !ds.isEmpty && ds.all digitChar then some (-(digitsToNat ds : Int)) else none
  | ds => if !ds.isEmpty && ds.all digitChar then some ((digitsToNat ds : Int)) else none

/-- Python list indexing including the negative-index convention:
`some j` is the physical position, `none` an `IndexError`. -/
def seqGetIdx (len : Nat) (i : Int) : Option Nat :=
  if 0 ≤ i then (if i < (len : Int) then some i.toNat else none)
  else (if 0 ≤ (len : Int) + i then some ((len : Int) + i).toNat else none)

/-- The `update_key` navigation of `apply_json_changes` (source lines
378-405): keys are split on dots only, list steps convert the key with
`int` (an uncaught `ValueError` on failure), and one empty mapping is
appended when the index is at least the length before the indexing that
may raise. -/
def jsonSetPath : List Str → YVal → YVal → Except Unit YVal
  | [], _, _ => Except.error ()
  | [last], v, cur =>
    (match cur with
     | YVal.map kvs => Except.ok (YVal.map (minsert kvs (MKey.s last) v))
     | _ => Except.ok cur)
  | k :: k2 :: rest, v, cur =>
    (match cur with
     | YVal.map kvs =>
       let child := (mlookupM kvs (MKey.s k)).getD (YVal.map [])
       (jsonSetPath (k2 :: rest) v child).map (fun c2 => YVal.map (minsert kvs (MKey.s k) c2))
     | YVal.seq xs =>
       (match pyInt k with
        | none => Except.error ()
        | some i =>
          let xs2 := if (xs.length : Int) ≤ i then xs ++ [YVal.map []] else xs
          (match seqGetIdx xs2.length i with
           | none => Except.error ()
           | some j =>
             (jsonSetPath (k2 :: rest) v (xs2.getD j YVal.null)).map
               (fun c2 => YVal.seq (xs2.set j c2))))
     | _ => Except.ok cur)

def applyJsonOps : List ChangeOp → YVal → Except Unit YVal
  | [], d => Except.ok d
  | ChangeOp.update p v :: rest, d =>
    if p.isEmpty then applyJsonOps rest d
    else (jsonSetPath (splitDot p) v d).bind (applyJsonOps rest)
  | _ :: rest, d => applyJsonOps rest d

/-- `apply_json_changes` (source lines 355-417): a parse failure is
caught and the file reported unchanged; the changed test compares the
`sort_keys=True` dumps. -/
def apply_json_changes (parsed : Except Unit YVal) (dumpJ : YVal → Str)
    (changes : List ChangeOp) (content : Str) : Except Unit (Str × Bool) :=
  match parsed with
  | Except.error _ => Except.ok (content, false)
  | Except.ok data =>
    (applyJsonOps changes data).map (fun d2 =>
      if ybeq (ynorm d2) (ynorm data) then (content, false) else (dumpJ d2, true))

/-! ## Text and env strategies (source lines 316-352 and 781-834) -/

/-- `re.sub(pattern, replacement, content)` for a pattern that is a
regex literal (no metacharacters) and a replacement without backslash
escapes, which is the shape of the counterexample below: replace each
leftmost non-overlapping occurrence.  Fuelled; the wrapper passes the
content length, sufficient because every step consumes at least one
character of the remaining text when the pattern is non-empty (the
caller guards `if pattern:`). -/
def subLitF : Nat → Str → Str → Str → Str
  | 0, _, _, s => s
  | _ + 1, _, _, [] => []
  | fuel + 1, pat, rep, c :: rest =>
    if pat.isPrefixOf (c :: rest) then rep ++ subLitF fuel pat rep ((c :: rest).drop pat.length)
    else c :: subLitF fuel pat rep rest

def subLit (pat rep s : Str) : Str := subLitF s.length pat rep s

/-- `apply_text_replacements` (source lines 316-352): fold the replace
operations over the content; other actions are ignored; changed iff the
final content differs. -/
def apply_text_replacements (changes : List ChangeOp) (content : Str) : Str × Bool :=
  let c2 := changes.foldl
    (fun c ch =>
      match ch with
      | ChangeOp.replaceOp p r => if p.isEmpty then c else subLit p r c
      | _ => c) content
  (c2, c2 != content)

/-- Matching of the env update pattern `rf'^{re.escape(key)}\s*=\s*.*$'`
against one line: the literal key at line start, optional whitespace,
then an equals sign. -/
def envLineMatches (key l : Str) : Bool :=
  key.isPrefixOf l &&
    (match (l.drop key.length).dropWhile wsChar with
     | '=' :: _ => true
     | _ => false)

/-- `if content and not content.endswith('\n'): content += '\n'`. -/
def ensureNl (c : Str) : Str := if !c.isEmpty && !endsNl c then c ++ ['\n'] else c

/-- The `update_key` branch of `apply_env_changes` (source lines
809-825): `re.sub` with `re.MULTILINE` rewrites every matching line to
`key=value`; with no match, the line is appended after ensuring a
trailing newline.  The per-line model of `re.sub` is exact for keys and
values free of newlines and of replacement escapes. -/
def applyEnvUpdate (key value : Str) (c : Str) : Str :=
  if (splitNl c).any (envLineMatches key) then
    joinNl ((splitNl c).map
      (fun l => if envLineMatches key l then key ++ '=' :: value else l))
  else ensureNl c ++ key ++ '=' :: value ++ ['\n']

/-- Python `str()` of a scalar rule value as used in the env f-string;
container values do not occur in env rules and are not modelled. -/
def pyStrScalar : YVal → Str
  | YVal.str s => s
  | YVal.int n => (toString n).toList
  | YVal.bool b => if b then "True".toList else "False".toList
  | YVal.null => "None".toList
  | _ => []

/-- `apply_env_changes` (source lines 781-834). -/
def apply_env_changes (changes : List ChangeOp) (content : Str) : Str × Bool :=
  let c2 := changes.foldl
    (fun c ch =>
      match ch with
      | ChangeOp.replaceOp p r => if p.isEmpty then c else subLit p r c
      | ChangeOp.update k v => if k.isEmpty then c else applyEnvUpdate k (pyStrScalar v) c
      | _ => c) content
  (c2, c2 != content)

/-! ## Scenario constants from the specification -/

def tolerationsKey : Str := "tolerations".toList

def affinityKey : Str := "affinity".toList

/-- The conditional pattern of the `tolerations` rule. -/
def roleListPattern : YVal := YVal.seq [YVal.map [(MKey.s kKey, YVal.str "role".toList)]]

/-- The conditional pattern of the `affinity` rule. -/
def nodeAffinityPattern : YVal := YVal.map [(MKey.s kNodeAff, YVal.map [])]

/-- The sample document of the conditional-delete scenario, with the
conventional trailing newline of a file. -/
def sampleContent : Str :=
  ("tolerations:\n- key: role\n  operator: Exists\naffinity:\n  nodeAffinity:\n    requiredDuringScheduling: {}\nreplicaCount: 2\n").toList

/-- What `yaml.safe_load` returns for `sampleContent`. -/
def sampleParsed : YVal := YVal.map [
  (MKey.s tolerationsKey, YVal.seq [YVal.map [(MKey.s kKey, YVal.str "role".toList),
    (MKey.s "operator".toList, YVal.str "Exists".toList)]]),
  (MKey.s affinityKey, YVal.map [(MKey.s kNodeAff,
    YVal.map [(MKey.s "requiredDuringScheduling".toList, YVal.map [])])]),
  (MKey.s "replicaCount".toList, YVal.int 2)]

/-- The file content after the first delete of the scenario. -/
def sampleMid : Str :=
  ("affinity:\n  nodeAffinity:\n    requiredDuringScheduling: {}\nreplicaCount: 2\n\n").toList

/-- What `yaml.safe_load` returns for `sampleMid` (blank lines are
ignored by the YAML parser). -/
def sampleMidParsed : YVal := YVal.map [
  (MKey.s affinityKey, YVal.map [(MKey.s kNodeAff,
    YVal.map [(MKey.s "requiredDuringScheduling".toList, YVal.map [])])]),
  (MKey.s "replicaCount".toList, YVal.int 2)]

/-- Parse oracle for the scenario, giving the library results on the two
contents the run reads. -/
def sampleOracle : Str → ParseOutcome := fun c =>
  if c = sampleContent then ParseOutcome.ok sampleParsed
  else if c = sampleMid then ParseOutcome.ok sampleMidParsed
  else ParseOutcome.exn

/-- A document whose `tolerations` list holds a single item tagged
`key: zone`. -/
def zoneContent : Str := ("tolerations:\n- key: zone\nreplicaCount: 2\n").toList

/-- What `yaml.safe_load` returns for `zoneContent`. -/
def zoneParsed : YVal := YVal.map [
  (MKey.s tolerationsKey, YVal.seq [YVal.map [(MKey.s kKey, YVal.str "zone".toList)]]),
  (MKey.s "replicaCount".toList, YVal.int 2)]

/-- The document `{jobs: {build: {steps: [{}]}}}` of the path
round-trip scenario. -/
def pathRoundTripDoc : YVal := YVal.map [(MKey.s "jobs".toList, YVal.map
  [(MKey.s "build".toList, YVal.map [(MKey.s "steps".toList, YVal.seq [YVal.map []])])])]

/-- Malformed YAML (an unclosed flow sequence): `yaml.safe_load` raises
on it, which the constant-exception oracle models. -/
def brokenContent : Str := ("x: [broken\na: 1\n").toList

/-- Decidable form of "the line indentation n is at most the indent of
every line of `ls` that matches the key pattern". -/
def keyIndentsAtLeast (key : Str) (ls : List Str) (n : Nat) : Bool :=
  ls.all (fun l2 =>
    match keyMatch key l2 with
    | some pr => decide (n ≤ pr.1)
    | none => true)

theorem skipNested_eq (ind : Nat) (ls : List Str) :
    skipNested ind ls = ls.dropWhile (fun l => isBlankL l || decide (ind < indentOf l)) := by
  induction ls with
  | nil => rfl
  | cons l rest ih =>
    by_cases hb : isBlankL l
    · simp [skipNested, hb, List.dropWhile, ih]
    · by_cases hle : indentOf l ≤ ind
      · simp [skipNested, hb, hle, List.dropWhile, Nat.not_lt.mpr hle]
      · simp [skipNested, hb, hle, List.dropWhile, Nat.lt_of_not_le hle, ih]

theorem dropWhile_dropWhile_of_imp {p q : Str → Bool}
    (h : ∀ l, q l = true → p l = true) (ls : List Str) :
    (ls.dropWhile q).dropWhile p = ls.dropWhile p := by
  induction ls with
  | nil => rfl
  | cons l rest ih =>
    by_cases hq : q l = true
    · have hp := h l hq
      simp [List.dropWhile, hq, hp, ih]
    · simp [List.dropWhile, hq]

theorem skipBlockF_eq (fuel ind : Nat) (ls : List Str) (h : ls.length ≤ fuel) :
    skipBlockF fuel ind ls = ls.dropWhile (blockP ind) := by
  induction fuel generalizing ls with
  | zero =>
    have : ls = [] := List.eq_nil_of_length_eq_zero (Nat.le_zero.mp h)
    subst this; rfl
  | succ fuel ih =>
    cases ls with
    | nil => rfl
    | cons l rest =>
      have hr : rest.length ≤ fuel := Nat.succ_le_succ_iff.mp h
      by_cases hb : isBlankL l
      · have : blockP ind l = true := by simp [blockP, hb]
        simp [skipBlockF, hb, List.dropWhile, this, ih rest hr]
      · by_cases hd : indentOf l == ind && startsDash l
        · have hd' := hd
          simp only [Bool.and_eq_true, beq_iff_eq] at hd'
          have heq : indentOf l = ind := hd'.1
          have hds : startsDash l = true := hd'.2
          have hbp : blockP ind l = true := by simp [blockP, heq, hds]
          have hlen : (skipNested (indentOf l) rest).length ≤ fuel := by
            rw [skipNested_eq]
            exact Nat.le_trans (List.dropWhile_sublist _).length_le hr
          rw [skipBlockF]
          simp only [hb, if_false, hd, if_true]
          rw [ih _ hlen, skipNested_eq, heq]
          rw [dropWhile_dropWhile_of_imp (p := blockP ind)
            (q := fun l => isBlankL l || decide (ind < indentOf l))]
          · simp [List.dropWhile, hbp]
          · intro x hx
            rcases Bool.or_eq_true _ _ |>.mp hx with hx | hx
            · simp [blockP, hx]
            · simp [blockP, hx]
        · by_cases hle : indentOf l ≤ ind
          · have hbp : blockP ind l = false := by
              have h1 : ¬ ind < indentOf l := Nat.not_lt.mpr hle
              rcases Nat.lt_or_ge (indentOf l) ind with hlt | hge
              · have hne : indentOf l ≠ ind := Nat.ne_of_lt hlt
                simp [blockP, hb, h1, hne]
              · have heq : indentOf l = ind := Nat.le_antisymm hle hge
                have : startsDash l = false := by
                  by_contra hc
                  have : startsDash l = true := Bool.of_not_eq_false hc
                  exact hd (by simp [heq, this])
                simp [blockP, hb, h1, this]
            simp [skipBlockF, hb, hd, hle, List.dropWhile, hbp]
          · have hlt : ind < indentOf l := Nat.lt_of_not_le hle
            have hbp : blockP ind l = true := by simp [blockP, hlt]
            simp [skipBlockF, hb, hd, hle, List.dropWhile, hbp, ih rest hr]

theorem skipBlock_eq (ind : Nat) (ls : List Str) :
    skipBlock ind ls = ls.dropWhile (blockP ind) :=
  skipBlockF_eq ls.length ind ls (Nat.le_refl _)

/-! ## Lemmas about line splitting and joining -/

theorem splitNl_ne_nil (s : Str) : splitNl s ≠ [] := by
  cases s with
  | nil => simp [splitNl]
  | cons c rest =>
    by_cases h : c = '\n'
    · simp [splitNl, h]
    · simp only [splitNl, if_neg h]
      cases splitNl rest <;> simp

theorem mem_splitNl_nlfree (s : Str) : ∀ l ∈ splitNl s, '\n' ∉ l := by
  induction s with
  | nil => intro l hl; simp [splitNl] at hl; simp [hl]
  | cons c rest ih =>
    intro l hl
    by_cases h : c = '\n'
    · simp only [splitNl, if_pos h] at hl
      rcases List.mem_cons.mp hl with hl | hl
      · simp [hl]
      · exact ih l hl
    · rcases hsp : splitNl rest with _ | ⟨l0, ls⟩
      · exact absurd hsp (splitNl_ne_nil rest)
      · simp only [splitNl, if_neg h, hsp] at hl
        rcases List.mem_cons.mp hl with hl | hl
        · subst hl
          intro hmem
          rcases List.mem_cons.mp hmem with hc | hc
          · exact h hc.symm
          · exact ih l0 (hsp ▸ List.mem_cons_self l0 ls) hc
        · exact ih l (hsp ▸ List.mem_cons_of_mem l0 hl)

theorem joinNl_splitNl (s : Str) : joinNl (splitNl s) = s := by
  induction s with
  | nil => rfl
  | cons c rest ih =>
    by_cases h : c = '\n'
    · subst h
      simp only [splitNl, if_pos rfl]
      rcases hsp : splitNl rest with _ | ⟨l0, ls⟩
      · exact absurd hsp (splitNl_ne_nil rest)
      · rw [hsp] at ih
        simp [joinNl, ih]
    · simp only [splitNl, if_neg h]
      rcases hsp : splitNl rest with _ | ⟨l0, ls⟩
      · exact absurd hsp (splitNl_ne_nil rest)
      · rw [hsp] at ih
        cases ls with
        | nil => simp_all [joinNl]
        | cons l1 ls1 => simp_all [joinNl]

theorem splitNl_append_nl (x y : Str) :
    splitNl (x ++ '\n' :: y) = splitNl x ++ splitNl y := by
  induction x with
  | nil => simp [splitNl]
  | cons c rest ih =>
    by_cases h : c = '\n'
    · simp [splitNl, h, ih]
    · rcases hsp : splitNl rest with _ | ⟨l0, ls⟩
      · exact absurd hsp (splitNl_ne_nil rest)
      · have step : ∀ z : Str, splitNl (c :: z) =
            (match splitNl z with
             | [] => [[c]]
             | l :: ls => (c :: l) :: ls) := by
          intro z; simp [splitNl, h]
        rw [List.cons_append, step, ih, hsp, step, hsp]
        simp

theorem splitNl_nlfree (l : Str) (h : '\n' ∉ l) : splitNl l = [l] := by
  induction l with
  | nil => rfl
  | cons c rest ih =>
    have hc : c ≠ '\n' := fun hc => h (hc ▸ List.mem_cons_self c rest)
    have hr : '\n' ∉ rest := fun hm => h (List.mem_cons_of_mem c hm)
    simp [splitNl, hc, ih hr]

theorem splitNl_snoc_nl (x : Str) : splitNl (x ++ ['\n']) = splitNl x ++ [[]] := by
  have := splitNl_append_nl x []
  simpa [splitNl] using this

theorem splitNl_joinNl (ls : List Str) (hne : ls ≠ [])
    (hfree : ∀ l ∈ ls, '\n' ∉ l) : splitNl (joinNl ls) = ls := by
  induction ls with
  | nil => exact absurd rfl hne
  | cons l rest ih =>
    cases rest with
    | nil => exact splitNl_nlfree l (hfree l (List.mem_cons_self _ _))
    | cons l1 rest1 =>
      have h1 : joinNl (l :: l1 :: rest1) = l ++ '\n' :: joinNl (l1 :: rest1) := rfl
      rw [h1, splitNl_append_nl, splitNl_nlfree l (hfree l (List.mem_cons_self _ _)),
        ih (by simp) (fun x hx => hfree x (List.mem_cons_of_mem l hx))]
      rfl

/-! ## Lemmas about the text-block deletion scan -/

theorem delLoopF_sublist (fuel : Nat) (key : Str) (ls : List Str) :
    (delLoopF fuel key ls).1.Sublist ls := by
  induction fuel generalizing ls with
  | zero => exact List.Sublist.refl ls
  | succ fuel ih =>
    cases ls with
    | nil => exact List.Sublist.refl []
    | cons l rest =>
      rcases hk : keyMatch key l with _ | ⟨ind, rol⟩
      · simp only [delLoopF, hk]
        exact List.Sublist.cons₂ l (ih rest)
      · by_cases hi : inlineVal rol
        · simp only [delLoopF, hk, hi, if_true]
          exact List.Sublist.cons l (ih rest)
        · simp only [delLoopF, hk, hi, if_false]
          refine List.Sublist.cons l (List.Sublist.trans (ih (skipBlock ind rest)) ?_)
          rw [skipBlock_eq]
          exact List.dropWhile_sublist _

theorem delLoop_sublist (key : Str) (ls : List Str) :
    (delLoop key ls).1.Sublist ls := delLoopF_sublist ls.length key ls

theorem keyMatch_nil (key : Str) : keyMatch key [] = none := by
  cases key with
  | nil => rfl
  | cons c rest => rfl

theorem delLoopF_keyfree (fuel : Nat) (key : Str) (ls : List Str)
    (h : ls.length ≤ fuel) : ∀ l ∈ (delLoopF fuel key ls).1, keyMatch key l = none := by
  induction fuel generalizing ls with
  | zero =>
    have : ls = [] := List.eq_nil_of_length_eq_zero (Nat.le_zero.mp h)
    subst this
    intro l hl
    simp [delLoopF] at hl
  | succ fuel ih =>
    cases ls with
    | nil => intro l hl; simp [delLoopF] at hl
    | cons l0 rest =>
      have hr : rest.length ≤ fuel := Nat.succ_le_succ_iff.mp h
      intro l hl
      rcases hk : keyMatch key l0 with _ | ⟨ind, rol⟩
      · simp only [delLoopF, hk] at hl
        rcases List.mem_cons.mp hl with hl | hl
        · subst hl; exact hk
        · exact ih rest hr l hl
      · by_cases hi : inlineVal rol
        · simp only [delLoopF, hk, hi, if_true] at hl
          exact ih rest hr l hl
        · simp only [delLoopF, hk, hi, if_false] at hl
          have hlen : (skipBlock ind rest).length ≤ fuel := by
            rw [skipBlock_eq]
            exact Nat.le_trans (List.dropWhile_sublist _).length_le hr
          exact ih (skipBlock ind rest) hlen l hl

theorem delLoop_keyfree (key : Str) (ls : List Str) :
    ∀ l ∈ (delLoop key ls).1, keyMatch key l = none :=
  delLoopF_keyfree ls.length key ls (Nat.le_refl _)

theorem delLoopF_found (fuel : Nat) (key : Str) (ls : List Str)
    (h : ls.length ≤ fuel)
    (hex : ls.any (fun l => (keyMatch key l).isSome) = true) :
    (delLoopF fuel key ls).2 = true := by
  induction fuel generalizing ls with
  | zero =>
    have : ls = [] := List.eq_nil_of_length_eq_zero (Nat.le_zero.mp h)
    subst this; simp at hex
  | succ fuel ih =>
    cases ls with
    | nil => simp at hex
    | cons l0 rest =>
      have hr : rest.length ≤ fuel := Nat.succ_le_succ_iff.mp h
      rcases hk : keyMatch key l0 with _ | ⟨ind, rol⟩
      · have hex2 : rest.any (fun l => (keyMatch key l).isSome) = true := by
          rcases List.any_eq_true.mp hex with ⟨x, hx, hpx⟩
          rcases List.mem_cons.mp hx with hx0 | hx0
          · subst hx0; rw [hk] at hpx; simp at hpx
          · exact List.any_eq_true.mpr ⟨x, hx0, hpx⟩
        simp only [delLoopF, hk]
        exact ih rest hr hex2
      · by_cases hi : inlineVal rol
        · simp [delLoopF, hk, hi]
        · simp [delLoopF, hk, hi]

theorem delLoop_found (key : Str) (ls : List Str)
    (hex : ls.any (fun l => (keyMatch key l).isSome) = true) :
    (delLoop key ls).2 = true :=
  delLoopF_found ls.length key ls (Nat.le_refl _) hex

theorem delLoopF_cons_some (fuel : Nat) (key l0 : Str) (rest : List Str)
    (ind : Nat) (rol : Str) (hk0 : keyMatch key l0 = some (ind, rol)) :
    delLoopF (fuel + 1) key (l0 :: rest) =
      if inlineVal rol then ((delLoopF fuel key rest).1, true)
      else ((delLoopF fuel key (skipBlock ind rest)).1, true) := by
  simp [delLoopF, hk0]

theorem delLoopF_cons_none (fuel : Nat) (key l0 : Str) (rest : List Str)
    (hk0 : keyMatch key l0 = none) :
    delLoopF (fuel + 1) key (l0 :: rest) =
      (l0 :: (delLoopF fuel key rest).1, (delLoopF fuel key rest).2) := by
  simp [delLoopF, hk0]

theorem count_dropWhile_of_not_p {p : Str → Bool} {l : Str} (ls : List Str)
    (hp : p l = false) : (ls.dropWhile p).count l = ls.count l := by
  conv_rhs => rw [← List.takeWhile_append_dropWhile (p := p) (l := ls)]
  rw [List.count_append]
  have : l ∉ ls.takeWhile p := by
    intro hmem
    have := List.mem_takeWhile_imp hmem
    rw [hp] at this
    exact Bool.false_ne_true this
  rw [List.count_eq_zero.mpr this, Nat.zero_add]

theorem delLoopF_count (fuel : Nat) (key : Str) (ls : List Str) (l : Str)
    (h : ls.length ≤ fuel)
    (hb : isBlankL l = false) (hd : startsDash l = false)
    (hk : keyMatch key l = none)
    (hind : ∀ l2 ∈ ls, ∀ i rol, keyMatch key l2 = some (i, rol) → indentOf l ≤ i) :
    (delLoopF fuel key ls).1.count l = ls.count l := by
  induction fuel generalizing ls with
  | zero =>
    have : ls = [] := List.eq_nil_of_length_eq_zero (Nat.le_zero.mp h)
    subst this; rfl
  | succ fuel ih =>
    cases ls with
    | nil => rfl
    | cons l0 rest =>
      have hr : rest.length ≤ fuel := Nat.succ_le_succ_iff.mp h
      have hindr : ∀ l2 ∈ rest, ∀ i rol, keyMatch key l2 = some (i, rol) → indentOf l ≤ i :=
        fun l2 hm => hind l2 (List.mem_cons_of_mem l0 hm)
      rcases hk0 : keyMatch key l0 with _ | ⟨ind, rol⟩
      · rw [delLoopF_cons_none fuel key l0 rest hk0]
        rw [List.count_cons, List.count_cons, ih rest hr hindr]
      · have hne : l ≠ l0 := by
          intro he; rw [he, hk0] at hk; exact Option.noConfusion hk
        have hcnt : (l0 :: rest).count l = rest.count l := by
          rw [List.count_cons]
          simp [beq_eq_false_iff_ne.mpr (Ne.symm hne)]
        rw [delLoopF_cons_some fuel key l0 rest ind rol hk0]
        by_cases hi : inlineVal rol
        · rw [if_pos hi]
          rw [ih rest hr hindr, hcnt]
        · rw [if_neg hi]
          have hlen : (skipBlock ind rest).length ≤ fuel := by
            rw [skipBlock_eq]
            exact Nat.le_trans (List.dropWhile_sublist _).length_le hr
          have hsub : ∀ l2 ∈ skipBlock ind rest, l2 ∈ rest := by
            intro l2 hm
            rw [skipBlock_eq] at hm
            exact (List.dropWhile_sublist _).subset hm
          have hindb : ∀ l2 ∈ skipBlock ind rest, ∀ i r2, keyMatch key l2 = some (i, r2) →
              indentOf l ≤ i := fun l2 hm => hindr l2 (hsub l2 hm)
          rw [ih (skipBlock ind rest) hlen hindb, hcnt, skipBlock_eq]
          apply count_dropWhile_of_not_p
          have hile : indentOf l ≤ ind := hind l0 (List.mem_cons_self _ _) ind rol hk0
          simp [blockP, hb, hd, Nat.not_lt.mpr hile]

theorem delLoop_count (key : Str) (ls : List Str) (l : Str)
    (hb : isBlankL l = false) (hd : startsDash l = false)
    (hk : keyMatch key l = none)
    (hind : ∀ l2 ∈ ls, ∀ i rol, keyMatch key l2 = some (i, rol) → indentOf l ≤ i) :
    (delLoop key ls).1.count l = ls.count l :=
  delLoopF_count ls.length key ls l (Nat.le_refl _) hb hd hk hind

/-! ## Content-level lemmas about the full delete routine -/

theorem del_yaml_eq_noex (key : Str) (e : Option YVal) (p : ParseOutcome) (c : Str)
    (hex : (splitNl c).any (fun l2 => (keyMatch key l2).isSome) = false) :
    delete_yaml_key_preserve_formatting key e p c = (c, false) := by
  simp [delete_yaml_key_preserve_formatting, hex]

theorem del_yaml_eq_gate (key : Str) (e : Option YVal) (p : ParseOutcome) (c : Str)
    (hg : (match e with
           | some ev => ! predGate key ev p
           | none => false) = true) :
    delete_yaml_key_preserve_formatting key e p c = (c, false) := by
  by_cases hex : (splitNl c).any (fun l2 => (keyMatch key l2).isSome)
  · simp [delete_yaml_key_preserve_formatting, hex, hg]
  · simp [delete_yaml_key_preserve_formatting, Bool.eq_false_iff.mpr hex]

theorem del_yaml_eq_changed (key : Str) (e : Option YVal) (p : ParseOutcome) (c : Str)
    (hex : (splitNl c).any (fun l2 => (keyMatch key l2).isSome) = true)
    (hg : (match e with
           | some ev => ! predGate key ev p
           | none => false) = false) :
    delete_yaml_key_preserve_formatting key e p c =
      (joinNl (delLoop key (splitNl c)).1 ++ (if endsNl c then ['\n'] else []), true) := by
  have hdel : (delLoop key (splitNl c)).2 = true := delLoop_found key (splitNl c) hex
  simp [delete_yaml_key_preserve_formatting, hex, hg, hdel]

theorem del_yaml_lines (key : Str) (e : Option YVal) (p : ParseOutcome) (c : Str) :
    ∀ l ∈ splitNl ((delete_yaml_key_preserve_formatting key e p c).1),
      l ∈ splitNl c ∨ l = [] := by
  intro l hl
  rcases hex : (splitNl c).any (fun l2 => (keyMatch key l2).isSome) with _ | _
  · rw [del_yaml_eq_noex key e p c hex] at hl
    exact Or.inl hl
  · rcases hg : (match e with
                 | some ev => ! predGate key ev p
                 | none => false) with _ | _
    · rw [del_yaml_eq_changed key e p c hex hg] at hl
      rcases hres : (delLoop key (splitNl c)).1 with _ | ⟨r0, rrest⟩
      · rw [hres] at hl
        by_cases hnl : endsNl c
        · rw [if_pos hnl] at hl
          have hsp : splitNl ((joinNl ([] : List Str)) ++ ['\n']) = [[], []] := rfl
          rw [hsp] at hl
          rcases List.mem_cons.mp hl with h2 | h2
          · exact Or.inr h2
          · rcases List.mem_cons.mp h2 with h3 | h3
            · exact Or.inr h3
            · simp at h3
        · rw [if_neg hnl] at hl
          have hsp : splitNl ((joinNl ([] : List Str)) ++ []) = [[]] := rfl
          rw [hsp] at hl
          rcases List.mem_cons.mp hl with h2 | h2
          · exact Or.inr h2
          · simp at h2
      · have hfree : ∀ x ∈ (delLoop key (splitNl c)).1, '\n' ∉ x := by
          intro x hx
          exact mem_splitNl_nlfree c x ((delLoop_sublist key (splitNl c)).subset hx)
        have hne : (delLoop key (splitNl c)).1 ≠ [] := by rw [hres]; simp
        have hsj : splitNl (joinNl (delLoop key (splitNl c)).1) =
            (delLoop key (splitNl c)).1 := splitNl_joinNl _ hne hfree
        by_cases hnl : endsNl c
        · rw [if_pos hnl, splitNl_snoc_nl, hsj] at hl
          rcases List.mem_append.mp hl with h2 | h2
          · exact Or.inl ((delLoop_sublist key (splitNl c)).subset h2)
          · rcases List.mem_cons.mp h2 with h3 | h3
            · exact Or.inr h3
            · simp at h3
        · rw [if_neg hnl, List.append_nil, hsj] at hl
          exact Or.inl ((delLoop_sublist key (splitNl c)).subset hl)
    · rw [del_yaml_eq_gate key e p c hg] at hl
      exact Or.inl hl

theorem del_yaml_keyfree_out (key : Str) (e : Option YVal) (p : ParseOutcome) (c : Str)
    (hch : (delete_yaml_key_preserve_formatting key e p c).2 = true) :
    ∀ l ∈ splitNl ((delete_yaml_key_preserve_formatting key e p c).1),
      keyMatch key l = none := by
  intro l hl
  rcases hex : (splitNl c).any (fun l2 => (keyMatch key l2).isSome) with _ | _
  · rw [del_yaml_eq_noex key e p c hex] at hch
    exact absurd hch (by simp)
  · rcases hg : (match e with
                 | some ev => ! predGate key ev p
                 | none => false) with _ | _
    · rw [del_yaml_eq_changed key e p c hex hg] at hl
      rcases hres : (delLoop key (splitNl c)).1 with _ | ⟨r0, rrest⟩
      · rw [hres] at hl
        by_cases hnl : endsNl c
        · rw [if_pos hnl] at hl
          have hsp : splitNl ((joinNl ([] : List Str)) ++ ['\n']) = [[], []] := rfl
          rw [hsp] at hl
          have hnil : l = [] := by
            rcases List.mem_cons.mp hl with h2 | h2
            · exact h2
            · rcases List.mem_cons.mp h2 with h3 | h3
              · exact h3
              · simp at h3
          rw [hnil]; exact keyMatch_nil key
        · rw [if_neg hnl] at hl
          have hsp : splitNl ((joinNl ([] : List Str)) ++ []) = [[]] := rfl
          rw [hsp] at hl
          have hnil : l = [] := by
            rcases List.mem_cons.mp hl with h2 | h2
            · exact h2
            · simp at h2
          rw [hnil]; exact keyMatch_nil key
      · have hfree : ∀ x ∈ (delLoop key (splitNl c)).1, '\n' ∉ x := by
          intro x hx
          exact mem_splitNl_nlfree c x ((delLoop_sublist key (splitNl c)).subset hx)
        have hne : (delLoop key (splitNl c)).1 ≠ [] := by rw [hres]; simp
        have hsj : splitNl (joinNl (delLoop key (splitNl c)).1) =
            (delLoop key (splitNl c)).1 := splitNl_joinNl _ hne hfree
        by_cases hnl : endsNl c
        · rw [if_pos hnl, splitNl_snoc_nl, hsj] at hl
          rcases List.mem_append.mp hl with h2 | h2
          · exact delLoop_keyfree key (splitNl c) l h2
          · have hnil : l = [] := by
              rcases List.mem_cons.mp h2 with h3 | h3
              · exact h3
              · simp at h3
            rw [hnil]; exact keyMatch_nil key
        · rw [if_neg hnl, List.append_nil, hsj] at hl
          exact delLoop_keyfree key (splitNl c) l hl
    · rw [del_yaml_eq_gate key e p c hg] at hch
      exact absurd hch (by simp)

theorem del_yaml_of_keyfree (key : Str) (e : Option YVal) (p : ParseOutcome) (c : Str)
    (hfree : ∀ l ∈ splitNl c, keyMatch key l = none) :
    delete_yaml_key_preserve_formatting key e p c = (c, false) := by
  apply del_yaml_eq_noex
  rcases hA : (splitNl c).any (fun l2 => (keyMatch key l2).isSome) with _ | _
  · rfl
  · rcases List.any_eq_true.mp hA with ⟨x, hx, hpx⟩
    rw [hfree x hx] at hpx
    simp at hpx

theorem del_yaml_uncond_false (key : Str) (p : ParseOutcome) (c : Str)
    (h : (delete_yaml_key_preserve_formatting key none p c).2 = false) :
    ∀ l ∈ splitNl c, keyMatch key l = none := by
  intro l hl
  rcases hex : (splitNl c).any (fun l2 => (keyMatch key l2).isSome) with _ | _
  · rcases hkm : keyMatch key l with _ | pr
    · rfl
    · have : (splitNl c).any (fun l2 => (keyMatch key l2).isSome) = true :=
        List.any_eq_true.mpr ⟨l, hl, by rw [hkm]; rfl⟩
      rw [this] at hex; exact absurd hex (by simp)
  · have hg : (match (none : Option YVal) with
               | some ev => ! predGate key ev p
               | none => false) = false := rfl
    rw [del_yaml_eq_changed key none p c hex hg] at h
    exact absurd h (by simp)

/-! ## Lemmas about the text-deletion dispatcher branch -/

theorem ytd_preserves_keyfree (parseO : Str → ParseOutcome) (key : Str)
    (changes : List ChangeOp) (c : Str)
    (hfree : ∀ l ∈ splitNl c, keyMatch key l = none) :
    ∀ l ∈ splitNl ((yamlTextDeletes parseO changes c).1), keyMatch key l = none := by
  induction changes generalizing c with
  | nil => exact hfree
  | cons ch rest ih =>
    cases ch with
    | deleteKey p ev =>
      have hstep : ∀ l ∈ splitNl ((delete_yaml_key_preserve_formatting p ev (parseO c) c).1),
          keyMatch key l = none := by
        intro l hl
        rcases del_yaml_lines p ev (parseO c) c l hl with h2 | h2
        · exact hfree l h2
        · rw [h2]; exact keyMatch_nil key
      exact ih _ hstep
    | replaceOp pa re => exact ih c hfree
    | update pa v => exact ih c hfree

theorem ytd_of_keyfree (parseO : Str → ParseOutcome) (changes : List ChangeOp) (c : Str)
    (hfree : ∀ p ev, ChangeOp.deleteKey p ev ∈ changes → ∀ l ∈ splitNl c, keyMatch p l = none) :
    yamlTextDeletes parseO changes c = (c, false) := by
  induction changes generalizing c with
  | nil => rfl
  | cons ch rest ih =>
    cases ch with
    | deleteKey p ev =>
      have hstep : delete_yaml_key_preserve_formatting p ev (parseO c) c = (c, false) :=
        del_yaml_of_keyfree p ev (parseO c) c
          (hfree p ev (List.mem_cons_self _ _))
      have hrest : yamlTextDeletes parseO rest c = (c, false) :=
        ih c (fun p2 ev2 hm => hfree p2 ev2 (List.mem_cons_of_mem _ hm))
      simp [yamlTextDeletes, hstep, hrest]
    | replaceOp pa re =>
      have hrest : yamlTextDeletes parseO rest c = (c, false) :=
        ih c (fun p2 ev2 hm => hfree p2 ev2 (List.mem_cons_of_mem _ hm))
      simp [yamlTextDeletes, hrest]
    | update pa v =>
      have hrest : yamlTextDeletes parseO rest c = (c, false) :=
        ih c (fun p2 ev2 hm => hfree p2 ev2 (List.mem_cons_of_mem _ hm))
      simp [yamlTextDeletes, hrest]

/-- After one pass of the text branch over unconditional deletes, the
final content holds no line matching any of the deleted keys. -/
theorem ytd_keyfree_all (parseO : Str → ParseOutcome) (changes : List ChangeOp) (c : Str)
    (huncond : ∀ p ev, ChangeOp.deleteKey p ev ∈ changes → ev = none) :
    ∀ p ev, ChangeOp.deleteKey p ev ∈ changes →
      ∀ l ∈ splitNl ((yamlTextDeletes parseO changes c).1), keyMatch p l = none := by
  induction changes generalizing c with
  | nil => intro p ev hm; simp at hm
  | cons ch rest ih =>
    intro p ev hm l hl
    cases ch with
    | deleteKey p0 ev0 =>
      have hev0 : ev0 = none := huncond p0 ev0 (List.mem_cons_self _ _)
      rcases List.mem_cons.mp hm with hh | hh
      · have hp : p0 = p := by cases hh; rfl
        subst hp
        subst hev0
        -- after the head delete the content is key-free for p0, and the
        -- remaining deletes only remove lines or add empty ones
        have hstep : ∀ x ∈ splitNl ((delete_yaml_key_preserve_formatting p0 none (parseO c) c).1),
            keyMatch p0 x = none := by
          rcases hch : (delete_yaml_key_preserve_formatting p0 none (parseO c) c).2 with _ | _
          · intro x hx
            have heq : delete_yaml_key_preserve_formatting p0 none (parseO c) c = (c, false) := by
              have hfr := del_yaml_uncond_false p0 (parseO c) c hch
              exact del_yaml_of_keyfree p0 none (parseO c) c hfr
            rw [heq] at hx
            exact del_yaml_uncond_false p0 (parseO c) c hch x hx
          · exact del_yaml_keyfree_out p0 none (parseO c) c hch
        have := ytd_preserves_keyfree parseO p0 rest _ hstep
        simp only [yamlTextDeletes] at hl
        exact this l hl
      · have huncond2 : ∀ p2 ev2, ChangeOp.deleteKey p2 ev2 ∈ rest → ev2 = none :=
          fun p2 ev2 hm2 => huncond p2 ev2 (List.mem_cons_of_mem _ hm2)
        have := ih ((delete_yaml_key_preserve_formatting p0 ev0 (parseO c) c).1)
          huncond2 p ev hh l
        simp only [yamlTextDeletes] at hl
        exact this hl
    | replaceOp pa re =>
      rcases List.mem_cons.mp hm with hh | hh
      · exact absurd hh (by simp)
      · have huncond2 : ∀ p2 ev2, ChangeOp.deleteKey p2 ev2 ∈ rest → ev2 = none :=
          fun p2 ev2 hm2 => huncond p2 ev2 (List.mem_cons_of_mem _ hm2)
        have := ih c huncond2 p ev hh l
        simp only [yamlTextDeletes] at hl
        exact this hl
    | update pa v =>
      rcases List.mem_cons.mp hm with hh | hh
      · exact absurd hh (by simp)
      · have huncond2 : ∀ p2 ev2, ChangeOp.deleteKey p2 ev2 ∈ rest → ev2 = none :=
          fun p2 ev2 hm2 => huncond p2 ev2 (List.mem_cons_of_mem _ hm2)
        have := ih c huncond2 p ev hh l
        simp only [yamlTextDeletes] at hl
        exact this hl

theorem onlyTopLevelDeletes_of_uncond (changes : List ChangeOp)
    (h : ∀ ch ∈ changes, ∃ p, ch = ChangeOp.deleteKey p none ∧
      p.contains '.' = false ∧ p.contains '[' = false) :
    onlyTopLevelDeletes changes = true := by
  induction changes with
  | nil => rfl
  | cons ch rest ih =>
    rcases h ch (List.mem_cons_self _ _) with ⟨p, hch, hd, hb⟩
    subst hch
    have hrest := ih (fun ch2 hm => h ch2 (List.mem_cons_of_mem _ hm))
    unfold onlyTopLevelDeletes
    rw [hd, hb]
    simpa using hrest

/-! ## Lemmas about the env upsert -/

theorem envLineMatches_self (k v : Str) : envLineMatches k (k ++ '=' :: v) = true := by
  unfold envLineMatches
  have h1 : k.isPrefixOf (k ++ '=' :: v) = true :=
    List.isPrefixOf_iff_prefix.mpr (List.prefix_append k _)
  have h2 : (k ++ '=' :: v).drop k.length = '=' :: v := List.drop_left k _
  rw [h1, h2]
  have : wsChar '=' = false := rfl
  simp [List.dropWhile, this]

theorem envLineMatches_nil (k : Str) (hk : k ≠ []) : envLineMatches k [] = false := by
  cases k with
  | nil => exact absurd rfl hk
  | cons a as => rfl

theorem nlfree_kv (k v : Str) (hnk : '\n' ∉ k) (hnv : '\n' ∉ v) :
    '\n' ∉ k ++ '=' :: v := by
  intro hmem
  rcases List.mem_append.mp hmem with h | h
  · exact hnk h
  · rcases List.mem_cons.mp h with h | h
    · exact absurd h (by decide)
    · exact hnv h

theorem applyEnvUpdate_eq_rewrite (k v c : Str)
    (h : (splitNl c).any (envLineMatches k) = true) :
    applyEnvUpdate k v c =
      joinNl ((splitNl c).map
        (fun l => if envLineMatches k l then k ++ '=' :: v else l)) := by
  unfold applyEnvUpdate
  rw [if_pos h]

theorem applyEnvUpdate_eq_append (k v c : Str)
    (h : (splitNl c).any (envLineMatches k) = false) :
    applyEnvUpdate k v c = ensureNl c ++ k ++ '=' :: v ++ ['\n'] := by
  unfold applyEnvUpdate
  rw [if_neg (by simp [h])]

/-- One env upsert is idempotent on the content. -/
theorem applyEnvUpdate_idem (k v c : Str) (hk : k ≠ [])
    (hnk : '\n' ∉ k) (hnv : '\n' ∉ v) :
    applyEnvUpdate k v (applyEnvUpdate k v c) = applyEnvUpdate k v c := by
  have hkvfree : '\n' ∉ k ++ '=' :: v := nlfree_kv k v hnk hnv
  by_cases hmatch : (splitNl c).any (envLineMatches k)
  · -- rewrite branch
    have hc1 : applyEnvUpdate k v c =
        joinNl ((splitNl c).map
          (fun l => if envLineMatches k l then k ++ '=' :: v else l)) :=
      applyEnvUpdate_eq_rewrite k v c hmatch
    set f : Str → Str := fun l => if envLineMatches k l then k ++ '=' :: v else l with hf
    have hmapfree : ∀ x ∈ (splitNl c).map f, '\n' ∉ x := by
      intro x hx
      rcases List.mem_map.mp hx with ⟨l, hl, hfl⟩
      by_cases hm : envLineMatches k l
      · rw [← hfl, hf]; simp only [hm, if_true]; exact hkvfree
      · rw [← hfl, hf]; simp only [hm, if_false]
        exact mem_splitNl_nlfree c l hl
    have hmapne : (splitNl c).map f ≠ [] := by
      intro heq
      exact splitNl_ne_nil c (List.map_eq_nil_iff.mp heq)
    have hsp1 : splitNl (applyEnvUpdate k v c) = (splitNl c).map f := by
      rw [hc1]; exact splitNl_joinNl _ hmapne hmapfree
    have hany1 : (splitNl (applyEnvUpdate k v c)).any (envLineMatches k) = true := by
      rw [hsp1]
      rcases List.any_eq_true.mp hmatch with ⟨l, hl, hml⟩
      refine List.any_eq_true.mpr ⟨k ++ '=' :: v, ?_, envLineMatches_self k v⟩
      refine List.mem_map.mpr ⟨l, hl, ?_⟩
      simp [hf, hml]
    have hff : ∀ l, f (f l) = f l := by
      intro l
      by_cases hm : envLineMatches k l
      · simp [hf, hm, envLineMatches_self k v]
      · simp [hf, hm]
    calc applyEnvUpdate k v (applyEnvUpdate k v c)
        = joinNl ((splitNl (applyEnvUpdate k v c)).map f) :=
          applyEnvUpdate_eq_rewrite k v _ hany1
      _ = joinNl (((splitNl c).map f).map f) := by rw [hsp1]
      _ = joinNl ((splitNl c).map f) := by
          rw [List.map_map]
          congr 1
          exact List.map_congr_left (fun l _ => hff l)
      _ = applyEnvUpdate k v c := hc1.symm
  · -- append branch
    have hmatch2 : (splitNl c).any (envLineMatches k) = false :=
      Bool.eq_false_iff.mpr hmatch
    have hnomatch : ∀ l ∈ splitNl c, envLineMatches k l = false := by
      intro l hl
      rcases hm : envLineMatches k l with _ | _
      · rfl
      · exact absurd (List.any_eq_true.mpr ⟨l, hl, hm⟩) hmatch
    have hc1 : applyEnvUpdate k v c = ensureNl c ++ k ++ '=' :: v ++ ['\n'] :=
      applyEnvUpdate_eq_append k v c hmatch2
    have hkvone : splitNl (k ++ '=' :: v ++ ['\n']) = [k ++ '=' :: v, []] := by
      have h1 : k ++ '=' :: v ++ ['\n'] = (k ++ '=' :: v) ++ ['\n'] := by simp
      rw [h1, splitNl_snoc_nl, splitNl_nlfree _ hkvfree]
      rfl
    have hlines : ∃ S, splitNl (applyEnvUpdate k v c) = S ++ [k ++ '=' :: v, []] ∧
        ∀ x ∈ S, x ∈ splitNl c := by
      by_cases hce : c = []
      · refine ⟨[], ?_, by intro x hx; simp at hx⟩
        subst hce
        rw [hc1]
        have he : ensureNl [] = [] := rfl
        rw [he, List.nil_append]
        exact hkvone
      · by_cases hnl : endsNl c
        · rcases List.getLast?_eq_some_iff.mp (by
            have hb := hnl
            unfold endsNl at hb
            exact eq_of_beq hb) with ⟨ys, hys⟩
          refine ⟨splitNl ys, ?_, ?_⟩
          · rw [hc1]
            have he : ensureNl c = c := by simp [ensureNl, hnl]
            rw [he, hys]
            have hassoc : (ys ++ ['\n']) ++ k ++ '=' :: v ++ ['\n'] =
                ys ++ '\n' :: ((k ++ '=' :: v) ++ ['\n']) := by simp
            rw [hassoc, splitNl_append_nl, splitNl_snoc_nl, splitNl_nlfree _ hkvfree]
            rfl
          · intro x hx
            rw [hys, splitNl_snoc_nl]
            exact List.mem_append_left _ hx
        · refine ⟨splitNl c, ?_, fun x hx => hx⟩
          rw [hc1]
          have he : ensureNl c = c ++ ['\n'] := by
            simp [ensureNl, hce, hnl]
          rw [he]
          have hassoc : (c ++ ['\n']) ++ k ++ '=' :: v ++ ['\n'] =
              c ++ '\n' :: ((k ++ '=' :: v) ++ ['\n']) := by simp
          rw [hassoc, splitNl_append_nl, splitNl_snoc_nl, splitNl_nlfree _ hkvfree]
          rfl
    rcases hlines with ⟨S, hS, hSmem⟩
    have hany1 : (splitNl (applyEnvUpdate k v c)).any (envLineMatches k) = true := by
      rw [hS]
      exact List.any_eq_true.mpr ⟨k ++ '=' :: v,
        List.mem_append_right _ (List.mem_cons_self _ _), envLineMatches_self k v⟩
    have hmapid : (splitNl (applyEnvUpdate k v c)).map
        (fun l => if envLineMatches k l then k ++ '=' :: v else l) =
        splitNl (applyEnvUpdate k v c) := by
      rw [hS, List.map_append]
      congr 1
      · have hid : List.map (fun l => if envLineMatches k l then k ++ '=' :: v else l) S =
            List.map id S := by
          apply List.map_congr_left
          intro x hx
          simp [hnomatch x (hSmem x hx)]
        rw [hid, List.map_id]
      · have h1 : envLineMatches k (k ++ '=' :: v) = true := envLineMatches_self k v
        have h2 : envLineMatches k [] = false := envLineMatches_nil k hk
        simp [h1, h2]
    calc applyEnvUpdate k v (applyEnvUpdate k v c)
        = joinNl ((splitNl (applyEnvUpdate k v c)).map
            (fun l => if envLineMatches k l then k ++ '=' :: v else l)) :=
          applyEnvUpdate_eq_rewrite k v _ hany1
      _ = joinNl (splitNl (applyEnvUpdate k v c)) := by rw [hmapid]
      _ = applyEnvUpdate k v c := joinNl_splitNl _

/-! ## Characterisations of the predicate matcher -/

/-- Case 1 of `_yaml_value_contains`: a one-element list pattern whose
element is a mapping with a "key" field accepts exactly the sequences
containing a mapping whose "key" field (read with the null-defaulting
`dict.get`) Python-equals the pattern field; every other value is
rejected through the equality fallback. -/
theorem contains_list_pattern_iff (pm : List (MKey × YVal)) (cv : YVal)
    (h : (mlookup pm kKey).isSome = true) :
    (_yaml_value_contains cv (YVal.seq [YVal.map pm]) = true ↔
      ∃ xs, cv = YVal.seq xs ∧ ∃ item ∈ xs, ∃ m, item = YVal.map m ∧
        pyEq (pyGet m kKey) (pyGet pm kKey) = true) := by
  cases cv with
  | seq xs =>
    have hun : _yaml_value_contains (YVal.seq xs) (YVal.seq [YVal.map pm]) =
        xs.any (fun item => match item with
          | YVal.map m => pyEq (pyGet m kKey) (pyGet pm kKey)
          | _ => false) := by
      have hfeq : _yaml_value_contains (YVal.seq xs) (YVal.seq [YVal.map pm]) =
          if (mlookup pm kKey).isSome = true then
            xs.any (fun item => match item with
              | YVal.map m => pyEq (pyGet m kKey) (pyGet pm kKey)
              | _ => false)
          else containsFallback (YVal.seq xs) (YVal.seq [YVal.map pm]) := rfl
      rw [hfeq, if_pos h]
    rw [hun]
    constructor
    · intro ha
      rcases List.any_eq_true.mp ha with ⟨item, hitem, hpi⟩
      refine ⟨xs, rfl, item, hitem, ?_⟩
      cases item with
      | map m => exact ⟨m, rfl, hpi⟩
      | str s => simp at hpi
      | int n => simp at hpi
      | bool b => simp at hpi
      | null => simp at hpi
      | seq s => simp at hpi
    · rintro ⟨xs2, hxs, item, hitem, m, hm, hp⟩
      injection hxs with hxe
      subst hxe
      subst hm
      exact List.any_eq_true.mpr ⟨YVal.map m, hitem, hp⟩
  | str s =>
    rw [show _yaml_value_contains (YVal.str s) (YVal.seq [YVal.map pm]) = false from by
      have hfeq : _yaml_value_contains (YVal.str s) (YVal.seq [YVal.map pm]) =
          if (mlookup pm kKey).isSome = true then
            containsFallback (YVal.str s) (YVal.seq [YVal.map pm])
          else containsFallback (YVal.str s) (YVal.seq [YVal.map pm]) := rfl
      rw [hfeq, if_pos h]
      rfl]
    constructor
    · intro hc; exact absurd hc (by simp)
    · rintro ⟨xs, hxs, -⟩; exact absurd hxs (by simp)
  | int n =>
    rw [show _yaml_value_contains (YVal.int n) (YVal.seq [YVal.map pm]) = false from by
      have hfeq : _yaml_value_contains (YVal.int n) (YVal.seq [YVal.map pm]) =
          if (mlookup pm kKey).isSome = true then
            containsFallback (YVal.int n) (YVal.seq [YVal.map pm])
          else containsFallback (YVal.int n) (YVal.seq [YVal.map pm]) := rfl
      rw [hfeq, if_pos h]
      rfl]
    constructor
    · intro hc; exact absurd hc (by simp)
    · rintro ⟨xs, hxs, -⟩; exact absurd hxs (by simp)
  | bool b =>
    rw [show _yaml_value_contains (YVal.bool b) (YVal.seq [YVal.map pm]) = false from by
      have hfeq : _yaml_value_contains (YVal.bool b) (YVal.seq [YVal.map pm]) =
          if (mlookup pm kKey).isSome = true then
            containsFallback (YVal.bool b) (YVal.seq [YVal.map pm])
          else containsFallback (YVal.bool b) (YVal.seq [YVal.map pm]) := rfl
      rw [hfeq, if_pos h]
      rfl]
    constructor
    · intro hc; exact absurd hc (by simp)
    · rintro ⟨xs, hxs, -⟩; exact absurd hxs (by simp)
  | null =>
    rw [show _yaml_value_contains YVal.null (YVal.seq [YVal.map pm]) = false from by
      have hfeq : _yaml_value_contains YVal.null (YVal.seq [YVal.map pm]) =
          if (mlookup pm kKey).isSome = true then
            containsFallback YVal.null (YVal.seq [YVal.map pm])
          else containsFallback YVal.null (YVal.seq [YVal.map pm]) := rfl
      rw [hfeq, if_pos h]
      rfl]
    constructor
    · intro hc; exact absurd hc (by simp)
    · rintro ⟨xs, hxs, -⟩; exact absurd hxs (by simp)
  | map m =>
    rw [show _yaml_value_contains (YVal.map m) (YVal.seq [YVal.map pm]) = false from by
      have hfeq : _yaml_value_contains (YVal.map m) (YVal.seq [YVal.map pm]) =
          if (mlookup pm kKey).isSome = true then
            containsFallback (YVal.map m) (YVal.seq [YVal.map pm])
          else containsFallback (YVal.map m) (YVal.seq [YVal.map pm]) := rfl
      rw [hfeq, if_pos h]
      rfl]
    constructor
    · intro hc; exact absurd hc (by simp)
    · rintro ⟨xs, hxs, -⟩; exact absurd hxs (by simp)

/-- Case 2 of `_yaml_value_contains`, restricted as the code has it to
the hard-wired marker key "nodeAffinity": a mapping pattern containing
"nodeAffinity" accepts exactly the mappings that also contain
"nodeAffinity"; every other value is rejected through the equality
fallback. -/
theorem contains_nodeaffinity_iff (pm : List (MKey × YVal)) (cv : YVal)
    (h : (mlookup pm kNodeAff).isSome = true) :
    (_yaml_value_contains cv (YVal.map pm) = true ↔
      ∃ m, cv = YVal.map m ∧ (mlookup m kNodeAff).isSome = true) := by
  cases cv with
  | map m =>
    have hun : _yaml_value_contains (YVal.map m) (YVal.map pm) =
        (mlookup m kNodeAff).isSome := by
      have hfeq : _yaml_value_contains (YVal.map m) (YVal.map pm) =
          if (mlookup pm kNodeAff).isSome = true then (mlookup m kNodeAff).isSome
          else _yaml_values_equal (YVal.map m) (YVal.map pm) := rfl
      rw [hfeq, if_pos h]
    rw [hun]
    constructor
    · intro hs; exact ⟨m, rfl, hs⟩
    · rintro ⟨m2, hm, hs⟩
      injection hm with hme
      subst hme
      exact hs
  | str s =>
    rw [show _yaml_value_contains (YVal.str s) (YVal.map pm) = false from by
      have hfeq : _yaml_value_contains (YVal.str s) (YVal.map pm) =
          if (mlookup pm kNodeAff).isSome = true then
            _yaml_values_equal (YVal.str s) (YVal.map pm)
          else _yaml_values_equal (YVal.str s) (YVal.map pm) := rfl
      rw [hfeq, if_pos h]
      rfl]
    constructor
    · intro hc; exact absurd hc (by simp)
    · rintro ⟨m2, hm, -⟩; exact absurd hm (by simp)
  | int n =>
    rw [show _yaml_value_contains (YVal.int n) (YVal.map pm) = false from by
      have hfeq : _yaml_value_contains (YVal.int n) (YVal.map pm) =
          if (mlookup pm kNodeAff).isSome = true then
            _yaml_values_equal (YVal.int n) (YVal.map pm)
          else _yaml_values_equal (YVal.int n) (YVal.map pm) := rfl
      rw [hfeq, if_pos h]
      rfl]
    constructor
    · intro hc; exact absurd hc (by simp)
    · rintro ⟨m2, hm, -⟩; exact absurd hm (by simp)
  | bool b =>
    rw [show _yaml_value_contains (YVal.bool b) (YVal.map pm) = false from by
      have hfeq : _yaml_value_contains (YVal.bool b) (YVal.map pm) =
          if (mlookup pm kNodeAff).isSome = true then
            _yaml_values_equal (YVal.bool b) (YVal.map pm)
          else _yaml_values_equal (YVal.bool b) (YVal.map pm) := rfl
      rw [hfeq, if_pos h]
      rfl]
    constructor
    · intro hc; exact absurd hc (by simp)
    · rintro ⟨m2, hm, -⟩; exact absurd hm (by simp)
  | null =>
    rw [show _yaml_value_contains YVal.null (YVal.map pm) = false from by
      have hfeq : _yaml_value_contains YVal.null (YVal.map pm) =
          if (mlookup pm kNodeAff).isSome = true then
            _yaml_values_equal YVal.null (YVal.map pm)
          else _yaml_values_equal YVal.null (YVal.map pm) := rfl
      rw [hfeq, if_pos h]
      rfl]
    constructor
    · intro hc; exact absurd hc (by simp)
    · rintro ⟨m2, hm, -⟩; exact absurd hm (by simp)
  | seq xs =>
    rw [show _yaml_value_contains (YVal.seq xs) (YVal.map pm) = false from by
      have hfeq : _yaml_value_contains (YVal.seq xs) (YVal.map pm) =
          if (mlookup pm kNodeAff).isSome = true then
            _yaml_values_equal (YVal.seq xs) (YVal.map pm)
          else _yaml_values_equal (YVal.seq xs) (YVal.map pm) := rfl
      rw [hfeq, if_pos h]
      rfl]
    constructor
    · intro hc; exact absurd hc (by simp)
    · rintro ⟨m2, hm, -⟩; exact absurd hm (by simp)

theorem apply_yaml_changes_text (parseO : Str → ParseOutcome) (dumpO : YVal → Str)
    (changes : List ChangeOp) (c : Str) (h : onlyTopLevelDeletes changes = true) :
    apply_yaml_changes parseO dumpO changes c =
      Except.ok (yamlTextDeletes parseO changes c) := by
  unfold apply_yaml_changes
  rw [if_pos h]

theorem apply_yaml_changes_exn (parseO : Str → ParseOutcome) (dumpO : YVal → Str)
    (changes : List ChangeOp) (c : Str) (hn : onlyTopLevelDeletes changes = false)
    (hp : parseO c = ParseOutcome.exn) :
    apply_yaml_changes parseO dumpO changes c = Except.ok (c, false) := by
  unfold apply_yaml_changes
  rw [if_neg (by simp [hn]), hp]

/-! ## The claims -/

/-- C1: the spec claims that parsing "jobs.build.steps[0].uses" yields the
five steps MapKey jobs / build / steps, ArrayIndex 0, MapKey uses, and
that SetKey with value "v" at that path turns the steps list entry into a
mapping with uses: v.  The code filters the split segments with Python
truthiness, which discards the integer index 0 together with the empty
strings, so the parsed path has only the four map keys; navigation then
reaches the steps sequence with the string key "uses", neither assignment
branch applies, and the document is returned unchanged. -/
theorem C1_path_round_trip_drops_index_zero :
    pathTruthy (PathKey.pidx 0) = false ∧
    parsePath "jobs.build.steps[0].uses".toList =
      [PathKey.pkey "jobs".toList, PathKey.pkey "build".toList,
       PathKey.pkey "steps".toList, PathKey.pkey "uses".toList] ∧
    applyStructOps
      [ChangeOp.update "jobs.build.steps[0].uses".toList (YVal.str "v".toList)]
      pathRoundTripDoc = Except.ok pathRoundTripDoc :=
  ⟨rfl, by decide, rfl⟩

/-- C2: frame property of the text-block delete.  (1) The emitted lines
are a sublist of the input lines: every kept line is byte-identical and in
its original order.  (2) A line that is not blank, not a list item, not a
key line itself, and whose indentation is at most the indent of every
occurrence of the key, is never removed (its count is preserved) — in
particular a sibling key at the same or lower indentation survives.
(3) Lifted to the whole routine: every line of the written content is an
original line or an empty line. -/
theorem C2_text_block_delete_frame (key : Str) (e : Option YVal)
    (p : ParseOutcome) (c : Str) :
    (delLoop key (splitNl c)).1.Sublist (splitNl c) ∧
    (∀ l, isBlankL l = false → startsDash l = false → keyMatch key l = none →
      keyIndentsAtLeast key (splitNl c) (indentOf l) = true →
      (delLoop key (splitNl c)).1.count l = (splitNl c).count l) ∧
    (∀ l ∈ splitNl ((delete_yaml_key_preserve_formatting key e p c).1),
      l ∈ splitNl c ∨ l = []) := by
  refine ⟨delLoop_sublist key (splitNl c), ?_, del_yaml_lines key e p c⟩
  intro l hb hd hk hB
  apply delLoop_count key (splitNl c) l hb hd hk
  intro l2 hm i rol hkm
  have hall := List.all_eq_true.mp hB l2 hm
  rw [hkm] at hall
  exact of_decide_eq_true hall

theorem C2_witness :
    (delLoop "k".toList (splitNl ("k:\n  a: 1\nj: 2\n").toList)).1.count "j: 2".toList =
      (splitNl ("k:\n  a: 1\nj: 2\n").toList).count "j: 2".toList :=
  (C2_text_block_delete_frame "k".toList none ParseOutcome.exn
    ("k:\n  a: 1\nj: 2\n").toList).2.1 "j: 2".toList
    (by decide) (by decide) (by decide) (by decide)

/-- C3: predicate gating for list patterns.  A one-element sequence
pattern whose element is a mapping with a "key" field matches exactly the
sequences containing a mapping whose "key" field equals the pattern field
(all other fields ignored; absent fields read as null through the
Python dict.get convention); and on the concrete document whose
tolerations list is [key: zone], the conditional delete with pattern
[key: role] leaves the file untouched and reports no change. -/
theorem C3_predicate_gating_list_pattern :
    (∀ (pm : List (MKey × YVal)) (cv : YVal), (mlookup pm kKey).isSome = true →
      (_yaml_value_contains cv (YVal.seq [YVal.map pm]) = true ↔
        ∃ xs, cv = YVal.seq xs ∧ ∃ item ∈ xs, ∃ m, item = YVal.map m ∧
          pyEq (pyGet m kKey) (pyGet pm kKey) = true)) ∧
    delete_yaml_key_preserve_formatting tolerationsKey (some roleListPattern)
      (ParseOutcome.ok zoneParsed) zoneContent = (zoneContent, false) :=
  ⟨contains_list_pattern_iff, by decide⟩

theorem C3_witness :
    _yaml_value_contains (YVal.seq [YVal.map [(MKey.s kKey, YVal.str "role".toList)]])
      (YVal.seq [YVal.map [(MKey.s kKey, YVal.str "role".toList)]]) = true :=
  (C3_predicate_gating_list_pattern.1 [(MKey.s kKey, YVal.str "role".toList)]
      (YVal.seq [YVal.map [(MKey.s kKey, YVal.str "role".toList)]]) (by decide)).mpr
    ⟨[YVal.map [(MKey.s kKey, YVal.str "role".toList)]], rfl,
     YVal.map [(MKey.s kKey, YVal.str "role".toList)], List.mem_cons_self _ _,
     [(MKey.s kKey, YVal.str "role".toList)], rfl, by decide⟩

/-- C4: the spec claims the two conditional deletes on the sample document
leave exactly "replicaCount: 2" with no stray blank lines and preserve the
trailing-newline convention.  On the newline-terminated sample the code
instead produces "replicaCount: 2" followed by two stray blank lines:
'\n'.join over the split lines already restores the original trailing
newline through the final empty segment, and the write then appends one
more newline per delete. -/
theorem C4_scenario_stray_blank_lines :
    yamlTextDeletes sampleOracle
      [ChangeOp.deleteKey tolerationsKey (some roleListPattern),
       ChangeOp.deleteKey affinityKey (some nodeAffinityPattern)] sampleContent =
      (("replicaCount: 2\n\n\n").toList, true) ∧
    ("replicaCount: 2\n\n\n").toList ≠ ("replicaCount: 2\n").toList :=
  ⟨by decide, by decide⟩

/-- C5 counterexample: the claim says a final-step ArrayIndex that exceeds
the sequence length is a no-op; the code appends the value at the end of
the sequence instead (here index 2 on an empty list), changing the
document. -/
theorem C5_counterexample :
    applyStructOps [ChangeOp.update "a[2]".toList (YVal.str "v".toList)]
      (YVal.map [(MKey.s "a".toList, YVal.seq [])]) =
      Except.ok (YVal.map [(MKey.s "a".toList, YVal.seq [YVal.str "v".toList])]) ∧
    YVal.map [(MKey.s "a".toList, YVal.seq [YVal.str "v".toList])] ≠
      YVal.map [(MKey.s "a".toList, YVal.seq [])] :=
  ⟨rfl, by simp⟩

/-- C5 amended: at the final step an ArrayIndex at or beyond the length
appends the value at the end of the sequence (no no-op case); at an
intermediate step an index equal to the length appends one empty mapping
and descends into it, while an index strictly beyond the length raises an
IndexError after the single append, modelled as the error outcome that
abandons the rule set for the file. -/
theorem C5_setkey_out_of_range :
    (∀ (xs : List YVal) (v : YVal) (i : Nat), xs.length ≤ i →
      setPath [PathKey.pidx i] v (YVal.seq xs) = Except.ok (YVal.seq (xs ++ [v]))) ∧
    (∀ (k : PathKey) (ks : List PathKey) (xs : List YVal) (v : YVal),
      setPath (PathKey.pidx xs.length :: k :: ks) v (YVal.seq xs) =
        (setPath (k :: ks) v (YVal.map [])).map (fun c2 => YVal.seq (xs ++ [c2]))) ∧
    (∀ (k : PathKey) (ks : List PathKey) (xs : List YVal) (v : YVal) (i : Nat),
      xs.length < i →
      setPath (PathKey.pidx i :: k :: ks) v (YVal.seq xs) = Except.error ()) := by
  refine ⟨?_, ?_, ?_⟩
  · intro xs v i h
    have hfeq : setPath [PathKey.pidx i] v (YVal.seq xs) =
        if i < xs.length then Except.ok (YVal.seq (xs.set i v))
        else Except.ok (YVal.seq (xs ++ [v])) := rfl
    rw [hfeq, if_neg (Nat.not_lt.mpr h)]
  · intro k ks xs v
    have hfeq : setPath (PathKey.pidx xs.length :: k :: ks) v (YVal.seq xs) =
        if hlt : xs.length < xs.length then
          (setPath (k :: ks) v (xs.get ⟨xs.length, hlt⟩)).map
            (fun c2 => YVal.seq (xs.set xs.length c2))
        else if xs.length = xs.length then
          (setPath (k :: ks) v (YVal.map [])).map (fun c2 => YVal.seq (xs ++ [c2]))
        else Except.error () := rfl
    rw [hfeq, dif_neg (Nat.lt_irrefl _), if_pos rfl]
  · intro k ks xs v i h
    have hfeq : setPath (PathKey.pidx i :: k :: ks) v (YVal.seq xs) =
        if hlt : i < xs.length then
          (setPath (k :: ks) v (xs.get ⟨i, hlt⟩)).map (fun c2 => YVal.seq (xs.set i c2))
        else if i = xs.length then
          (setPath (k :: ks) v (YVal.map [])).map (fun c2 => YVal.seq (xs ++ [c2]))
        else Except.error () := rfl
    rw [hfeq, dif_neg (by omega), if_neg (by omega)]

theorem C5_witness :
    setPath [PathKey.pidx 2] (YVal.str "v".toList) (YVal.seq []) =
      Except.ok (YVal.seq [YVal.str "v".toList]) :=
  C5_setkey_out_of_range.1 [] (YVal.str "v".toList) 2 (by decide)

/-- C6 counterexample: the claim generalises the marker-key rule to every
marker key, but the code hard-wires "nodeAffinity"; for the marker key
"podAffinity" a mapping pattern containing it does not match a mapping
value containing the same key with a different value — the pair falls
through to exact equality and the matcher returns false where the claim
demands true. -/
theorem C6_counterexample :
    (mlookup [(MKey.s "podAffinity".toList, YVal.null)] "podAffinity".toList).isSome
      = true ∧
    (mlookup [(MKey.s "podAffinity".toList, YVal.str "x".toList)]
      "podAffinity".toList).isSome = true ∧
    _yaml_value_contains
      (YVal.map [(MKey.s "podAffinity".toList, YVal.str "x".toList)])
      (YVal.map [(MKey.s "podAffinity".toList, YVal.null)]) = false :=
  ⟨rfl, rfl, by decide⟩

/-- C6 amended: the marker-key rule holds exactly for the hard-wired
marker "nodeAffinity": a mapping pattern containing "nodeAffinity"
matches precisely the mapping values that also contain "nodeAffinity",
whatever its value; all other values fall through to normalized
equality, which rejects them. -/
theorem C6_marker_key_rule_nodeaffinity_only :
    ∀ (pm : List (MKey × YVal)) (cv : YVal), (mlookup pm kNodeAff).isSome = true →
      (_yaml_value_contains cv (YVal.map pm) = true ↔
        ∃ m, cv = YVal.map m ∧ (mlookup m kNodeAff).isSome = true) :=
  contains_nodeaffinity_iff

theorem C6_witness :
    _yaml_value_contains (YVal.map [(MKey.s kNodeAff, YVal.int 5)])
      (YVal.map [(MKey.s kNodeAff, YVal.map [])]) = true :=
  (C6_marker_key_rule_nodeaffinity_only [(MKey.s kNodeAff, YVal.map [])]
      (YVal.map [(MKey.s kNodeAff, YVal.int 5)]) (by decide)).mpr
    ⟨[(MKey.s kNodeAff, YVal.int 5)], rfl, by decide⟩

/-- C7 counterexample: idempotence fails for Replace operations whose
replacement re-introduces the pattern: replacing "a" by "aa" on content
"a" yields "aa", and a second application of the same rule set yields
"aaaa" and reports changed again. -/
theorem C7_counterexample :
    apply_text_replacements [ChangeOp.replaceOp "a".toList "aa".toList] "a".toList =
      ("aa".toList, true) ∧
    apply_text_replacements [ChangeOp.replaceOp "a".toList "aa".toList] "aa".toList =
      ("aaaa".toList, true) ∧
    ("aaaa").toList ≠ ("aa").toList :=
  ⟨by decide, by decide, by decide⟩

/-- C7 amended: idempotence does hold for the strategies without regex
substitution: a YAML rule set of unconditional top-level deletes applied a
second time to the first run output leaves the content identical and
reports no change (for any parse oracles, since unconditional deletes
never parse); and a single env update_key with newline-free key and value
applied a second time leaves the content identical and reports no
change. -/
theorem C7_idempotence_without_replace :
    (∀ (parseO parseO2 : Str → ParseOutcome) (dumpO dumpO2 : YVal → Str)
       (changes : List ChangeOp) (c : Str),
      (∀ ch ∈ changes, ∃ p, ch = ChangeOp.deleteKey p none ∧
        p.contains '.' = false ∧ p.contains '[' = false) →
      ∃ c1 b, apply_yaml_changes parseO dumpO changes c = Except.ok (c1, b) ∧
        apply_yaml_changes parseO2 dumpO2 changes c1 = Except.ok (c1, false)) ∧
    (∀ (k v c : Str), '\n' ∉ k → '\n' ∉ v →
      apply_env_changes [ChangeOp.update k (YVal.str v)]
          ((apply_env_changes [ChangeOp.update k (YVal.str v)] c).1) =
        ((apply_env_changes [ChangeOp.update k (YVal.str v)] c).1, false)) := by
  constructor
  · intro pO pO2 dO dO2 changes c hyp
    have htop := onlyTopLevelDeletes_of_uncond changes hyp
    refine ⟨(yamlTextDeletes pO changes c).1, (yamlTextDeletes pO changes c).2, ?_, ?_⟩
    · rw [apply_yaml_changes_text pO dO changes c htop]
    · have huncond : ∀ p2 ev2, ChangeOp.deleteKey p2 ev2 ∈ changes → ev2 = none := by
        intro p2 ev2 hm2
        rcases hyp _ hm2 with ⟨p3, heq, -, -⟩
        injection heq with h1 h2
      have hfree : ∀ p2 ev2, ChangeOp.deleteKey p2 ev2 ∈ changes →
          ∀ l ∈ splitNl ((yamlTextDeletes pO changes c).1), keyMatch p2 l = none :=
        fun p2 ev2 hm2 => ytd_keyfree_all pO changes c huncond p2 ev2 hm2
      rw [apply_yaml_changes_text pO2 dO2 changes _ htop,
        ytd_of_keyfree pO2 changes _ hfree]
  · intro k v c hnk hnv
    cases k with
    | nil =>
      have hrun : ∀ c0 : Str, apply_env_changes [ChangeOp.update [] (YVal.str v)] c0 =
          (c0, c0 != c0) := fun c0 => rfl
      rw [hrun, hrun]
      simp
    | cons a as =>
      have hrun : ∀ c0, apply_env_changes [ChangeOp.update (a :: as) (YVal.str v)] c0 =
          (applyEnvUpdate (a :: as) v c0, applyEnvUpdate (a :: as) v c0 != c0) :=
        fun c0 => rfl
      rw [hrun, hrun]
      rw [applyEnvUpdate_idem (a :: as) v c (by simp) hnk hnv]
      simp

theorem C7_witness :
    apply_env_changes [ChangeOp.update "A".toList (YVal.str "3".toList)]
        ((apply_env_changes [ChangeOp.update "A".toList (YVal.str "3".toList)]
          "B=1\n".toList).1) =
      ((apply_env_changes [ChangeOp.update "A".toList (YVal.str "3".toList)]
        "B=1\n".toList).1, false) :=
  C7_idempotence_without_replace.2 "A".toList "3".toList "B=1\n".toList
    (by decide) (by decide)

/-- C8 counterexample: the claim says the env upsert rewrites the first
line matching the key pattern; re.sub with re.MULTILINE rewrites every
matching line, so a file with two A= lines has both rewritten, while the
first-line reading would leave A=2 intact. -/
theorem C8_counterexample :
    apply_env_changes [ChangeOp.update "A".toList (YVal.str "3".toList)]
      ("A=1\nA=2\n").toList = (("A=3\nA=3\n").toList, true) ∧
    ("A=3\nA=3\n").toList ≠ ("A=3\nA=2\n").toList :=
  ⟨by decide, by decide⟩

/-- C8 amended: the env update rewrites EVERY line matching
^key\s*=.*$ to key=value, preserving all other lines and their order;
when no line matches it appends key=value after ensuring a trailing
newline; key matching is an exact token anchored at line start, so
updating API_KEY never touches an API_KEY_VERSION line, and setting
API_KEY_VERSION on a file holding only API_KEY=old appends the new
line. -/
theorem C8_env_upsert_rewrites_every_match :
    (∀ (k v c : Str), '\n' ∉ k → '\n' ∉ v →
      (splitNl c).any (envLineMatches k) = true →
      splitNl (applyEnvUpdate k v c) =
        (splitNl c).map (fun l => if envLineMatches k l then k ++ '=' :: v else l)) ∧
    (∀ (k v c : Str), (splitNl c).any (envLineMatches k) = false →
      applyEnvUpdate k v c = ensureNl c ++ k ++ '=' :: v ++ ['\n']) ∧
    envLineMatches "API_KEY".toList ("API_KEY_VERSION=3").toList = false ∧
    apply_env_changes
      [ChangeOp.update "API_KEY_VERSION".toList (YVal.str "3".toList)]
      ("API_KEY=old\n").toList =
      (("API_KEY=old\nAPI_KEY_VERSION=3\n").toList, true) := by
  refine ⟨?_, ?_, by decide, by decide⟩
  · intro k v c hnk hnv hmatch
    have hkvfree : '\n' ∉ k ++ '=' :: v := nlfree_kv k v hnk hnv
    have hmapfree : ∀ x ∈ (splitNl c).map
        (fun l => if envLineMatches k l then k ++ '=' :: v else l), '\n' ∉ x := by
      intro x hx
      rcases List.mem_map.mp hx with ⟨l, hl, hfl⟩
      by_cases hm : envLineMatches k l
      · rw [← hfl]; simp only [hm, if_true]; exact hkvfree
      · rw [← hfl]; simp only [hm, if_false]
        exact mem_splitNl_nlfree c l hl
    have hmapne : (splitNl c).map
        (fun l => if envLineMatches k l then k ++ '=' :: v else l) ≠ [] := by
      intro heq
      exact splitNl_ne_nil c (List.map_eq_nil_iff.mp heq)
    rw [applyEnvUpdate_eq_rewrite k v c hmatch]
    exact splitNl_joinNl _ hmapne hmapfree
  · exact applyEnvUpdate_eq_append

theorem C8_witness :
    applyEnvUpdate "A".toList "3".toList [] =
      ensureNl [] ++ "A".toList ++ '=' :: "3".toList ++ ['\n'] :=
  C8_env_upsert_rewrites_every_match.2.1 "A".toList "3".toList [] (by decide)

/-- C9 counterexample: on malformed YAML (here an unclosed flow sequence,
so the parse oracle raises on every content) an unconditional top-level
DeleteKey is routed through the text branch, which never parses: the file
IS modified and the run reports changed, against the claim that any
structural rule on a malformed file leaves it unmodified with no
change. -/
theorem C9_counterexample :
    apply_yaml_changes (fun _ => ParseOutcome.exn) (fun _ => [])
      [ChangeOp.deleteKey "a".toList none] brokenContent =
      Except.ok (("x: [broken\n\n").toList, true) ∧
    ("x: [broken\n\n").toList ≠ brokenContent :=
  ⟨rfl, by decide⟩

/-- C9 amended: parse resilience holds on the parse-based paths: a JSON
parse failure is caught and the file reported unchanged, and a YAML rule
set routed through the structural branch (any update_key or nested
delete) on content whose parse raises is caught and the file reported
unchanged; but the text-block delete path never parses, so malformed
YAML does not stop it (see the counterexample). -/
theorem C9_parse_error_resilience_structural :
    (∀ (dumpJ : YVal → Str) (changes : List ChangeOp) (c : Str),
      apply_json_changes (Except.error ()) dumpJ changes c = Except.ok (c, false)) ∧
    (∀ (parseO : Str → ParseOutcome) (dumpO : YVal → Str)
       (changes : List ChangeOp) (c : Str),
      parseO c = ParseOutcome.exn → onlyTopLevelDeletes changes = false →
      apply_yaml_changes parseO dumpO changes c = Except.ok (c, false)) :=
  ⟨fun _ _ _ => rfl,
   fun parseO dumpO changes c hp hn => apply_yaml_changes_exn parseO dumpO changes c hn hp⟩

theorem C9_witness :
    apply_yaml_changes (fun _ => ParseOutcome.exn) (fun _ => [])
      [ChangeOp.update "a".toList YVal.null] "x".toList =
      Except.ok ("x".toList, false) :=
  C9_parse_error_resilience_structural.2 (fun _ => ParseOutcome.exn) (fun _ => [])
    [ChangeOp.update "a".toList YVal.null] "x".toList rfl rfl

/-- C10: one pass of the text-block delete removes every key line: every
line the scan emits fails the key pattern; consequently when an
invocation reports a deletion, an immediately repeated invocation on the
resulting content (with any expected value and any parse outcome) finds
no match, returns false and leaves the content untouched. -/
theorem C10_single_pass_removes_all_occurrences :
    (∀ (key : Str) (ls : List Str), ∀ l ∈ (delLoop key ls).1, keyMatch key l = none) ∧
    (∀ (key : Str) (e e2 : Option YVal) (p p2 : ParseOutcome) (c : Str),
      (delete_yaml_key_preserve_formatting key e p c).2 = true →
      delete_yaml_key_preserve_formatting key e2 p2
          ((delete_yaml_key_preserve_formatting key e p c).1) =
        ((delete_yaml_key_preserve_formatting key e p c).1, false)) := by
  refine ⟨delLoop_keyfree, ?_⟩
  intro key e e2 p p2 c hch
  exact del_yaml_of_keyfree key e2 p2 _ (del_yaml_keyfree_out key e p c hch)

theorem C10_witness :
    delete_yaml_key_preserve_formatting "k".toList none ParseOutcome.exn
        ((delete_yaml_key_preserve_formatting "k".toList none ParseOutcome.exn
          ("k: 1\nb: 2\n").toList).1) =
      ((delete_yaml_key_preserve_formatting "k".toList none ParseOutcome.exn
        ("k: 1\nb: 2\n").toList).1, false) :=
  C10_single_pass_removes_all_occurrences.2 "k".toList none none
    ParseOutcome.exn ParseOutcome.exn ("k: 1\nb: 2\n").toList (by decide)

end BulkPr
